import Mathlib

/-!
Verification development for the glock repository, a minimal Bitcoin-style
blockchain node written in Go.

The Go sources are shallowly embedded below.  Conventions:

- Go byte slices are modelled as lists of naturals (each entry a byte value).
- Go int values are modelled as integers; loop counters that are
  known non-negative are modelled as naturals.
- Go library functions that are outside the repository (crypto/sha256,
  encoding/gob, the fmt hex renderer, RIPEMD-160, Base58, the ECDSA
  primitives) are modelled as parameters, collected in the Env structure;
  theorems quantify over them and concrete witnesses instantiate them.
- A Go runtime panic (slice index out of range, nil dereference) is
  modelled by the none case of an Option result.
- The boltDB bucket is modelled as an association list of key-value pairs;
  Get and Put are modelled by bget and bput.  An Update transaction that
  returns an error rolls back, which the embedding models by returning the
  original state together with the error.
-/

/-- Big-endian interpretation of a byte string as a natural number,
modelling the Go big.Int SetBytes method. -/
def bytesToNat (bs : List ℕ) : ℕ :=
  bs.foldl (fun a b => a * 256 + b) 0

/-- Structural worker for natBytes; the first argument is recursion fuel
(any amount at least the value itself is enough). -/
def natBytesAux : ℕ → ℕ → List ℕ
  | _, 0 => []
  | 0, _ + 1 => []
  | fuel + 1, n + 1 => natBytesAux fuel ((n + 1) / 256) ++ [(n + 1) % 256]

/-- Minimal big-endian byte representation of a natural number, modelling
the Go big.Int Bytes method: the empty list for zero, no leading zeros
otherwise. -/
def natBytes (n : ℕ) : List ℕ := natBytesAux n n

theorem natBytesAux_congr (n : ℕ) : ∀ fuel fuel' : ℕ, n ≤ fuel → n ≤ fuel' →
    natBytesAux fuel n = natBytesAux fuel' n := by
  induction n using Nat.strong_induction_on with
  | _ n ih =>
    intro fuel fuel' h1 h2
    match n, fuel, fuel', h1, h2 with
    | 0, f, g, _, _ => cases f <;> cases g <;> rfl
    | m + 1, f + 1, g + 1, h1, h2 =>
      have hdiv : (m + 1) / 256 < m + 1 := Nat.div_lt_self (Nat.succ_pos m) (by omega)
      rw [natBytesAux, natBytesAux,
        ih ((m + 1) / 256) hdiv f g (by omega) (by omega)]

/-- The defining unfolding of natBytes on a positive value. -/
theorem natBytes_succ (n : ℕ) :
    natBytes (n + 1) = natBytes ((n + 1) / 256) ++ [(n + 1) % 256] := by
  have hdiv : (n + 1) / 256 < n + 1 := Nat.div_lt_self (Nat.succ_pos n) (by omega)
  rw [natBytes, natBytes, natBytesAux,
    natBytesAux_congr ((n + 1) / 256) n ((n + 1) / 256) (by omega) le_rfl]

/-- Apply a function to the element at a given position of a list, leaving
the list unchanged when the position is out of range.  This models an
in-place Go slice element update. -/
def modifyAt (f : α → α) : ℕ → List α → List α
  | _, [] => []
  | 0, a :: as => f a :: as
  | n + 1, a :: as => a :: modifyAt f n as

/-- Index a list with a Go int: a negative index or an index past the end
is a runtime panic, modelled as none. -/
def listGetZ (l : List α) (i : ℤ) : Option α :=
  if h : 0 ≤ i ∧ i.toNat < l.length then some (l.get ⟨i.toNat, h.2⟩) else none

/-- Lookup in a boltDB bucket (an association list); models bucket.Get,
which yields nil for an absent key. -/
def bget : List (List ℕ × List ℕ) → List ℕ → Option (List ℕ)
  | [], _ => none
  | e :: es, k => if e.1 = k then some e.2 else bget es k

/-- Store into a boltDB bucket; models bucket.Put, which overwrites the
value of an existing key and otherwise adds the pair. -/
def bput : List (List ℕ × List ℕ) → List ℕ → List ℕ → List (List ℕ × List ℕ)
  | [], k, v => [(k, v)]
  | e :: es, k, v => if e.1 = k then (k, v) :: es else e :: bput es k v

theorem bget_bput_same (b : List (List ℕ × List ℕ)) (k v : List ℕ) :
    bget (bput b k v) k = some v := by
  induction b with
  | nil => simp [bget, bput]
  | cons e es ih =>
    by_cases hek : e.1 = k
    · simp [bget, bput, hek]
    · simp [bget, bput, hek, ih]

theorem bget_bput_other (b : List (List ℕ × List ℕ)) (k v k' : List ℕ)
    (h : k' ≠ k) : bget (bput b k v) k' = bget b k' := by
  induction b with
  | nil => simp [bget, bput, Ne.symm h]
  | cons e es ih =>
    by_cases hek : e.1 = k
    · simp [bget, bput, hek, Ne.symm h]
    · by_cases hek' : e.1 = k'
      · simp [bget, bput, hek, hek', h]
      · simp [bget, bput, hek, hek', ih]

theorem bytesToNat_append_single (xs : List ℕ) (b : ℕ) :
    bytesToNat (xs ++ [b]) = bytesToNat xs * 256 + b := by
  simp [bytesToNat, List.foldl_append]

/-- The big-endian byte representation round-trips through SetBytes. -/
theorem bytesToNat_natBytes (n : ℕ) : bytesToNat (natBytes n) = n := by
  induction n using Nat.strong_induction_on with
  | _ n ih =>
    match n with
    | 0 => simp [natBytes, natBytesAux, bytesToNat]
    | m + 1 =>
      rw [natBytes_succ, bytesToNat_append_single,
        ih ((m + 1) / 256) (Nat.div_lt_self (Nat.succ_pos m) (by omega))]
      omega

theorem modifyAt_set_get (f : α → α) (i : ℕ) (l : List α) (a : α)
    (h : l.get? i = some a) (hf : f a = a) : modifyAt f i l = l := by
  induction l generalizing i with
  | nil => simp [modifyAt]
  | cons x xs ih =>
    cases i with
    | zero =>
      simp only [List.get?] at h
      cases h
      simp [modifyAt, hf]
    | succ j =>
      simp only [List.get?] at h
      simp [modifyAt, ih j h]

theorem modifyAt_get? (f : α → α) (i : ℕ) (l : List α) :
    (modifyAt f i l).get? i = (l.get? i).map f := by
  induction l generalizing i with
  | nil => simp [modifyAt]
  | cons x xs ih =>
    cases i with
    | zero => simp [modifyAt]
    | succ j => simpa [modifyAt] using ih j

theorem modifyAt_modifyAt (f g : α → α) (i : ℕ) (l : List α) :
    modifyAt f i (modifyAt g i l) = modifyAt (fun a => f (g a)) i l := by
  induction l generalizing i with
  | nil => simp [modifyAt]
  | cons x xs ih =>
    cases i with
    | zero => simp [modifyAt]
    | succ j => simp [modifyAt, ih j]

/-! ## Transaction data model

Embedding of the transaction package: TXInput, TXOutput and Transaction
from src/internal/transaction.  Go byte slices become lists of naturals
and Go int fields become integers. -/

/-- A transaction input (struct TXInput). -/
structure TXInput where
  txid : List ℕ
  vout : ℤ
  signature : List ℕ
  publicKey : List ℕ
deriving DecidableEq

/-- A transaction output (struct TXOutput). -/
structure TXOutput where
  value : ℤ
  publicKeyHash : List ℕ
deriving DecidableEq

/-- A transaction (struct Transaction). -/
structure Transaction where
  id : List ℕ
  vin : List TXInput
  vout : List TXOutput
deriving DecidableEq

instance : Inhabited TXInput := ⟨⟨[], 0, [], []⟩⟩

instance : Inhabited TXOutput := ⟨⟨0, []⟩⟩

/-- The zero value of the Transaction struct, produced by a Go map lookup
on an absent key. -/
instance : Inhabited Transaction := ⟨⟨[], [], []⟩⟩

/-- IsCoinbase: exactly one input, with empty previous txid and previous
output index -1. -/
def isCoinbase (tx : Transaction) : Bool :=
  tx.vin.length = 1 ∧ (tx.vin.headI.txid.length = 0 ∧ tx.vin.headI.vout = -1)

/-- TrimmedCopy: same id and outputs, every input keeps only its txid and
vout, with signature and public key cleared. -/
def trimmedCopy (tx : Transaction) : Transaction :=
  { id := tx.id
    vin := tx.vin.map (fun vin => ⟨vin.txid, vin.vout, [], []⟩)
    vout := tx.vout.map (fun vout => ⟨vout.value, vout.publicKeyHash⟩) }

/-- Lookup of prevTXs[hex(txid)]: the Go map is keyed by the hex encoding
of the txid, which is injective on byte strings, so the model is keyed by
the txid itself.  An absent key yields the zero-value Transaction. -/
def lookupTx (m : List (List ℕ × Transaction)) (k : List ℕ) : Transaction :=
  match m.find? (fun e => e.1 = k) with
  | some e => e.2
  | none => default

/-! ## Merkle tree (src/internal/block/merkle.go) -/

/-- A Merkle tree node: pointers to the children (nil modelled as none)
and the node data. -/
inductive MerkleNode where
  | mk (left : Option MerkleNode) (right : Option MerkleNode) (data : List ℕ)

/-- The Data field of a Merkle node. -/
def MerkleNode.data : MerkleNode → List ℕ
  | .mk _ _ d => d

/-- NewMerkleNode over an abstract SHA-256 function: a node with two nil
children hashes the given data, otherwise the concatenation of the
children data is hashed.  Dereferencing a nil child is a Go panic,
modelled as none (it cannot happen on the call patterns used). -/
def newMerkleNode (sha : List ℕ → List ℕ) :
    Option MerkleNode → Option MerkleNode → List ℕ → Option MerkleNode
  | none, none, d => some (.mk none none (sha d))
  | some l, some r, _ => some (.mk (some l) (some r) (sha (l.data ++ r.data)))
  | _, _, _ => none

/-- One pass of the inner loop of NewMerkleTree: pair up the nodes at
positions j and j+1 for j = 0, 2, 4, ...; when the level has odd length
the access to nodes at j+1 is out of range, a Go panic modelled as none. -/
def mergePairs (sha : List ℕ → List ℕ) : List MerkleNode → Option (List MerkleNode)
  | [] => some []
  | [_] => none
  | a :: b :: rest => do
      let node ← newMerkleNode sha (some a) (some b) []
      let level ← mergePairs sha rest
      pure (node :: level)

/-- The outer loop of NewMerkleTree, run a fixed number of times. -/
def reduceLevels (sha : List ℕ → List ℕ) : ℕ → List MerkleNode → Option (List MerkleNode)
  | 0, nodes => some nodes
  | count + 1, nodes => do
      let level ← mergePairs sha nodes
      reduceLevels sha count level

/-- The initial padding step of NewMerkleTree: an odd-length input has its
last entry duplicated. -/
def padData (data : List (List ℕ)) : List (List ℕ) :=
  if data.length % 2 ≠ 0 then data ++ (data.getLast?.map (fun d => [d])).getD []
  else data

/-- NewMerkleTree: pad to even length, hash every datum into a leaf, then
run the pairing loop len(data)/2 times and take the first remaining node
as the root.  Taking the first node of an empty list is a Go panic
(none), as is any out-of-range access in the pairing loop. -/
def newMerkleTree (sha : List ℕ → List ℕ) (data : List (List ℕ)) : Option MerkleNode := do
  let data := padData data
  let leaves := data.map (fun d => MerkleNode.mk none none (sha d))
  let nodes ← reduceLevels sha (data.length / 2) leaves
  match nodes with
  | [] => none
  | root :: _ => pure root

/-- Block.HashTransactions: the Merkle root of the transaction ids. -/
def hashTransactionsOf (sha : List ℕ → List ℕ) (txs : List Transaction) :
    Option (List ℕ) :=
  (newMerkleTree sha (txs.map (fun tx => tx.id))).map MerkleNode.data

/-! ## Wire command framing (src/internal/server/command.go) -/

/-- The fixed width of a wire command tag. -/
def commandLength : ℕ := 12

/-- commandToBytes: copy the command bytes into a zeroed 12-byte array.
For an ASCII command the loop writes byte i at index i; a command longer
than 12 bytes indexes past the array bound, a Go panic modelled as none. -/
def commandToBytes (command : List ℕ) : Option (List ℕ) :=
  if command.length ≤ commandLength then
    some (command ++ List.replicate (commandLength - command.length) 0)
  else none

/-- bytesToCommand: collect every non-zero byte of the tag. -/
def bytesToCommand (bytes : List ℕ) : List ℕ :=
  bytes.filter (fun b => b ≠ 0)

/-! ## Blocks and the environment of library functions -/

/-- A block (struct Block of src/internal/block, final shape with a
height field). -/
structure Block where
  timestamp : ℤ
  transactions : List Transaction
  prevBlockHash : List ℕ
  hash : List ℕ
  nonce : ℤ
  height : ℤ
deriving DecidableEq

/-- The library functions the repository calls but does not define
(crypto, encoding and formatting).  The embedding is parametric in them;
concrete witnesses instantiate them. -/
structure Env where
  /-- crypto/sha256 Sum256 -/
  sha : List ℕ → List ℕ
  /-- the Go fmt rendering %x of a Transaction value followed by a
  newline, as used by Sign and Verify for the data to sign -/
  fmtHex : Transaction → List ℕ
  /-- encoding/gob of a Transaction (Serialize) -/
  gobTx : Transaction → List ℕ
  /-- encoding/gob of a Block (Block.Serialize) -/
  serB : Block → List ℕ
  /-- gob decoding of a Block (DeserializeBlock); none is a decode error -/
  deserB : List ℕ → Option Block
  /-- HashPubKey: RIPEMD-160 of SHA-256 of a public key -/
  hashPub : List ℕ → List ℕ
  /-- Base58Encode -/
  b58enc : List ℕ → List ℕ
  /-- Base58Decode -/
  b58dec : List ℕ → List ℕ

/-- Transaction.Hash: clear the id, serialize, and take SHA-256. -/
def txHash (env : Env) (tx : Transaction) : List ℕ :=
  env.sha (env.gobTx { tx with id := [] })

/-! ## Proof of work (pow source file, package blockchain) -/

/-- targetBits, the fixed difficulty parameter. -/
def targetBits : ℕ := 24

/-- The PoW target, the integer 1 shifted left by 256 - targetBits. -/
def powTarget : ℕ := 2 ^ (256 - targetBits)

/-- maxNonce, math.MaxInt64. -/
def maxNonce : ℕ := 9223372036854775807

/-- The ASCII code of the lowercase hexadecimal digit for a value below
sixteen. -/
def hexDigitChar (d : ℕ) : ℕ := if d < 10 then 48 + d else 87 + d

/-- Big-endian hexadecimal digits of a positive natural, most significant
first, empty for zero. -/
def natToHexAux : ℕ → List ℕ
  | 0 => []
  | n + 1 => natToHexAux ((n + 1) / 16) ++ [hexDigitChar ((n + 1) % 16)]
decreasing_by exact Nat.div_lt_self (Nat.succ_pos n) (by omega)

/-- The Go fmt rendering %x of a non-negative integer: lowercase
hexadecimal ASCII with no prefix and no padding. -/
def natToHex (n : ℕ) : List ℕ :=
  if n = 0 then [48] else natToHexAux n

/-- IntToHex: the fmt rendering %x of an int64, with a leading minus sign
for negative values. -/
def intToHex (n : ℤ) : List ℕ :=
  if n < 0 then 45 :: natToHex n.natAbs else natToHex n.natAbs

/-- prepareData for a given Merkle root of the transactions: the
concatenation of the previous block hash, the Merkle root, and the hex
renderings of the timestamp, of targetBits and of the nonce. -/
def powData (prev mroot : List ℕ) (ts nonce : ℤ) : List ℕ :=
  prev ++ mroot ++ intToHex ts ++ intToHex (targetBits : ℤ) ++ intToHex nonce

/-- prepareData of a block for a nonce; none when HashTransactions
panics inside NewMerkleTree. -/
def prepareData (env : Env) (b : Block) (nonce : ℤ) : Option (List ℕ) :=
  (hashTransactionsOf env.sha b.transactions).map
    (fun mroot => powData b.prevBlockHash mroot b.timestamp nonce)

/-- The search loop of ProofOfWork.Run, with the remaining iteration
count made explicit: while the nonce is below maxNonce, hash the prepared
data and stop at the first hash below the target; when the bound is
reached, return the current nonce together with the hash computed last. -/
def powRunAux (env : Env) (prev mroot : List ℕ) (ts : ℤ) :
    ℕ → ℕ → List ℕ → ℕ × List ℕ
  | 0, nonce, hs => (nonce, hs)
  | fuel + 1, nonce, _ =>
      let hs := env.sha (powData prev mroot ts (nonce : ℤ))
      if bytesToNat hs < powTarget then (nonce, hs)
      else powRunAux env prev mroot ts fuel (nonce + 1) hs

/-- ProofOfWork.Run: search the nonces 0, 1, 2, ... below maxNonce.  The
hash variable starts as the zero value of a 32-byte array.  The result is
none when HashTransactions panics. -/
def powRun (env : Env) (b : Block) : Option (ℕ × List ℕ) :=
  (hashTransactionsOf env.sha b.transactions).map
    (fun mroot =>
      powRunAux env b.prevBlockHash mroot b.timestamp maxNonce 0 (List.replicate 32 0))

/-- ProofOfWork.Validate: recompute the hash at the stored nonce and
compare against the target. -/
def powValidate (env : Env) (b : Block) : Option Bool :=
  (hashTransactionsOf env.sha b.transactions).map
    (fun mroot =>
      decide (bytesToNat (env.sha (powData b.prevBlockHash mroot b.timestamp b.nonce))
        < powTarget))

/-- The block value NewBlock assembles before running the proof of work:
empty hash and zero nonce. -/
def preBlock (ts : ℤ) (txs : List Transaction) (prev : List ℕ) (height : ℤ) : Block where
  timestamp := ts
  transactions := txs
  prevBlockHash := prev
  hash := []
  nonce := 0
  height := height

/-- NewBlock: build the block with empty hash and zero nonce at the given
timestamp, run the proof of work, and store the resulting nonce and
hash. -/
def newBlock (env : Env) (ts : ℤ) (txs : List Transaction) (prev : List ℕ)
    (height : ℤ) : Option Block :=
  (powRun env (preBlock ts txs prev height)).map
    (fun r => { preBlock ts txs prev height with hash := r.2, nonce := (r.1 : ℤ) })

/-! ## Errors (src/internal/errors/errors.go) -/

/-- The domain errors surfaced by the repository, plus a constructor for
the errors produced by the gob decoding library. -/
inductive GlockError where
  | blockExists
  | invalidTransaction
  | transactionNotFound
  | notEnoughFunds
  | deserializeError
deriving DecidableEq

/-! ## Chain store (src/internal/blockchain/blockchain.go, first section,
the version with node ids and block heights) -/

/-- The in-memory state of a Blockchain value: the tip hash and the
blocks bucket of the database. -/
structure BCState where
  tip : List ℕ
  bucket : List (List ℕ × List ℕ)
deriving DecidableEq

/-- The distinguished bucket key "l" (one ASCII byte). -/
def lKey : List ℕ := [108]

/-- AddBlock: inside one write transaction, fail with the block-exists
error when the hash is present; otherwise store the serialized block,
then load and decode the current tip block, and move the "l" key and the
in-memory tip to the new hash exactly when the new height is larger.  An
error returned from the transaction rolls it back, so the state comes
back unchanged next to the error. -/
def addBlock (env : Env) (st : BCState) (bl : Block) : BCState × Option GlockError :=
  match bget st.bucket bl.hash with
  | some _ => (st, some .blockExists)
  | none =>
    let bucket1 := bput st.bucket bl.hash (env.serB bl)
    match bget bucket1 lKey with
    | none => (st, some .deserializeError)
    | some lastHash =>
      match bget bucket1 lastHash with
      | none => (st, some .deserializeError)
      | some lastBlockData =>
        match env.deserB lastBlockData with
        | none => (st, some .deserializeError)
        | some lastBlock =>
          if lastBlock.height < bl.height then
            ({ tip := bl.hash, bucket := bput bucket1 lKey bl.hash }, none)
          else
            ({ tip := st.tip, bucket := bucket1 }, none)

/-- FindTransaction: walk the chain from a hash towards the genesis block
(the iterator), scanning each block for the transaction id.  The fuel
argument bounds the number of dereferenced blocks; its exhaustion (none)
models a walk that never reaches a block with an empty previous hash. -/
def findTransaction (env : Env) (bucket : List (List ℕ × List ℕ)) :
    ℕ → List ℕ → List ℕ → Option (Except GlockError Transaction)
  | 0, _, _ => none
  | fuel + 1, cur, id =>
    match bget bucket cur with
    | none => some (.error .deserializeError)
    | some blockData =>
      match env.deserB blockData with
      | none => some (.error .deserializeError)
      | some bl =>
        match bl.transactions.find? (fun tx => tx.id = id) with
        | some tx => some (.ok tx)
        | none =>
          if bl.prevBlockHash.length = 0 then some (.error .transactionNotFound)
          else findTransaction env bucket fuel bl.prevBlockHash id

/-- The prevTXs map built by SignTransaction and VerifyTransaction: one
FindTransaction call per input, keyed by the id of the found
transaction. -/
def buildPrevTXs (env : Env) (st : BCState) (fuel : ℕ) :
    List TXInput → Option (Except GlockError (List (List ℕ × Transaction)))
  | [] => some (.ok [])
  | vin :: rest =>
    match findTransaction env st.bucket fuel st.tip vin.txid with
    | none => none
    | some (.error e) => some (.error e)
    | some (.ok prevTX) =>
      (buildPrevTXs env st fuel rest).map
        (fun r => r.map (fun m => (prevTX.id, prevTX) :: m))

/-! ## Transaction.Sign and Transaction.Verify
(src/internal/transaction/transaction.go)

The ECDSA primitives of crypto/ecdsa are library functions.  The signer
is a parameter ecS taking the input position and the data to sign to the
pair (r, s) it produced there; quantifying over ecS quantifies over the
outcomes of the randomized signing.  The verifier is a parameter ecV
taking the public key coordinates, the data and the signature pair. -/

/-- The in-place update of the two assignment statements at the top of
each loop iteration of Sign and of Verify: clear the signature of input
i of the copy and put the referenced public key hash into its public key
field. -/
def setInputKey (pkh : List ℕ) (i : ℕ) (c : Transaction) : Transaction :=
  { c with vin := modifyAt (fun v => { v with signature := [], publicKey := pkh }) i c.vin }

/-- The in-place update at the bottom of each loop iteration of Sign and
of Verify: clear the public key of input i of the copy again. -/
def clearInputKey (i : ℕ) (c : Transaction) : Transaction :=
  { c with vin := modifyAt (fun v => { v with publicKey := [] }) i c.vin }

/-- The loop of Transaction.Sign over the trimmed inputs: set input i of
the copy to the referenced output's public key hash, render the copy as
the data to sign, call the signer, store r.bytes followed by s.bytes,
and clear the copied public key again.  An out-of-range reference into
the previous transaction is a Go panic (none). -/
def txSignAux (env : Env) (ecS : ℕ → List ℕ → ℕ × ℕ)
    (prevs : List (List ℕ × Transaction)) :
    List TXInput → ℕ → Transaction → Option (List (List ℕ))
  | [], _, _ => some []
  | vin :: rest, i, txCopy =>
    let prevTx := lookupTx prevs vin.txid
    match listGetZ prevTx.vout vin.vout with
    | none => none
    | some out =>
      let txCopy1 := setInputKey out.publicKeyHash i txCopy
      let dataToSign := env.fmtHex txCopy1
      let rs := ecS i dataToSign
      let signature := natBytes rs.1 ++ natBytes rs.2
      let txCopy2 := clearInputKey i txCopy1
      (txSignAux env ecS prevs rest (i + 1) txCopy2).map
        (fun sigs => signature :: sigs)

/-- Transaction.Sign: nothing to do for a coinbase; otherwise run the
signing loop on a trimmed copy and store each produced signature into the
corresponding input of the real transaction. -/
def txSign (env : Env) (ecS : ℕ → List ℕ → ℕ × ℕ) (tx : Transaction)
    (prevs : List (List ℕ × Transaction)) : Option Transaction :=
  if isCoinbase tx then some tx
  else
    (txSignAux env ecS prevs (trimmedCopy tx).vin 0 (trimmedCopy tx)).map
      (fun sigs =>
        { tx with vin := List.zipWith (fun v s => { v with signature := s }) tx.vin sigs })

/-- The loop of Transaction.Verify over the real inputs: rebuild the
data exactly as Sign does, recover r and s by splitting the stored
signature in half, recover the key coordinates by splitting the stored
public key in half, and call the verifier; the first failing input makes
the whole verification false. -/
def txVerifyAux (env : Env) (ecV : ℕ × ℕ → List ℕ → ℕ × ℕ → Bool)
    (prevs : List (List ℕ × Transaction)) :
    List TXInput → ℕ → Transaction → Option Bool
  | [], _, _ => some true
  | vin :: rest, i, txCopy =>
    let prevTx := lookupTx prevs vin.txid
    match listGetZ prevTx.vout vin.vout with
    | none => none
    | some out =>
      let txCopy1 := setInputKey out.publicKeyHash i txCopy
      let sigLen := vin.signature.length
      let r := bytesToNat (vin.signature.take (sigLen / 2))
      let s := bytesToNat (vin.signature.drop (sigLen / 2))
      let keyLen := vin.publicKey.length
      let x := bytesToNat (vin.publicKey.take (keyLen / 2))
      let y := bytesToNat (vin.publicKey.drop (keyLen / 2))
      let dataToVerify := env.fmtHex txCopy1
      if ecV (x, y) dataToVerify (r, s) then
        txVerifyAux env ecV prevs rest (i + 1) (clearInputKey i txCopy1)
      else some false

/-- Transaction.Verify.  Note that this function has no coinbase guard:
the loop runs on a coinbase input as well and dereferences the output at
position -1 of the referenced transaction. -/
def txVerify (env : Env) (ecV : ℕ × ℕ → List ℕ → ℕ × ℕ → Bool)
    (tx : Transaction) (prevs : List (List ℕ × Transaction)) : Option Bool :=
  txVerifyAux env ecV prevs tx.vin 0 (trimmedCopy tx)

/-- Blockchain.VerifyTransaction: a coinbase passes immediately;
otherwise collect the previous transaction of every input from the chain
and run Transaction.Verify. -/
def verifyTransaction (env : Env) (ecV : ℕ × ℕ → List ℕ → ℕ × ℕ → Bool)
    (fuel : ℕ) (st : BCState) (tx : Transaction) : Option (Except GlockError Bool) :=
  if isCoinbase tx then some (.ok true)
  else
    match buildPrevTXs env st fuel tx.vin with
    | none => none
    | some (.error e) => some (.error e)
    | some (.ok prevs) => (txVerify env ecV tx prevs).map .ok

/-- Blockchain.SignTransaction as called by NewUTXOTransaction: collect
the previous transactions and sign.  A lookup error is returned to the
caller, which ignores it, leaving the transaction unsigned; the fuel
exhaustion and the signing panic stay none. -/
def signTransaction (env : Env) (ecS : ℕ → List ℕ → ℕ × ℕ) (fuel : ℕ)
    (st : BCState) (tx : Transaction) : Option Transaction :=
  match buildPrevTXs env st fuel tx.vin with
  | none => none
  | some (.error _) => some tx
  | some (.ok prevs) => txSign env ecS tx prevs

/-! ## The block handler (src/internal/server/block.go) and MineBlock -/

/-- handleBlock, restricted to its effect on the chain store: decode the
block payload and call AddBlock, ignoring its result.  A decode error
returns before any store access.  The remaining body (the in-transit
list and the UTXO reindex) does not touch the blocks bucket. -/
def handleBlock (env : Env) (st : BCState) (blockBytes : List ℕ) : BCState :=
  match env.deserB blockBytes with
  | none => st
  | some bl => (addBlock env st bl).1

/-- The verification loop at the top of MineBlock: the first transaction
whose VerifyTransaction reports an error propagates it, and the first
one that verifies as false yields the invalid-transaction error. -/
def verifyAll (env : Env) (ecV : ℕ × ℕ → List ℕ → ℕ × ℕ → Bool) (fuel : ℕ)
    (st : BCState) : List Transaction → Option (Except GlockError Unit)
  | [] => some (.ok ())
  | tx :: rest =>
    match verifyTransaction env ecV fuel st tx with
    | none => none
    | some (.error e) => some (.error e)
    | some (.ok false) => some (.error .invalidTransaction)
    | some (.ok true) => verifyAll env ecV fuel st rest

/-- MineBlock: verify all transactions, read the tip hash and the tip
block height, build the new block at height plus one through NewBlock
(which runs the proof of work), and write it, unconditionally moving the
"l" key and the in-memory tip to the new hash.  An error leaves the
state unchanged; the outer none is a Go panic inside NewBlock. -/
def mineBlock (env : Env) (ecV : ℕ × ℕ → List ℕ → ℕ × ℕ → Bool) (fuel : ℕ)
    (ts : ℤ) (st : BCState) (txs : List Transaction) :
    Option (BCState × Except GlockError Block) :=
  match verifyAll env ecV fuel st txs with
  | none => none
  | some (.error e) => some (st, .error e)
  | some (.ok ()) =>
    match bget st.bucket lKey with
    | none => some (st, .error .deserializeError)
    | some lastHash =>
      match bget st.bucket lastHash with
      | none => some (st, .error .deserializeError)
      | some lastBlockData =>
        match env.deserB lastBlockData with
        | none => some (st, .error .deserializeError)
        | some lastBlock =>
          match newBlock env ts txs lastHash (lastBlock.height + 1) with
          | none => none
          | some nb =>
            some ({ tip := nb.hash,
                    bucket := bput (bput st.bucket nb.hash (env.serB nb)) lKey nb.hash },
                  .ok nb)

/-! ## Claim C6 -/

/-- C6: the claim states that for every non-empty list of transaction ids
NewMerkleTree reduces the nodes level by level until exactly one root
remains.  The code contradicts its own intent (the loop comment says
the pairing continues until one node is left): the outer loop runs
len(data)/2 times, and already for five ids (padded to six leaves) the
second pass meets a level of three nodes and reads past its end, a Go
index-out-of-range panic, modelled as none.  This holds for every
SHA-256 function, so it is a property of the loop structure alone. -/
theorem c6_newMerkleTree_five_ids_panics :
    ∀ sha : List ℕ → List ℕ, newMerkleTree sha [[1], [2], [3], [4], [5]] = none :=
  fun _ => rfl

/-! ## Claim C10 -/

/-- C10: wire-command framing round trip.  Every command of at most
twelve non-NUL bytes (the ASCII bound reflects that the Go loop ranges
over runes with byte indices) is padded with NUL bytes to exactly twelve
bytes by commandToBytes, and bytesToCommand recovers it; a longer
command makes commandToBytes index past the fixed-size array, so it does
not return normally. -/
theorem c10_command_roundtrip :
    (∀ command : List ℕ, command.length ≤ commandLength →
      (∀ b ∈ command, b ≠ 0) → (∀ b ∈ command, b < 128) →
      commandToBytes command =
        some (command ++ List.replicate (commandLength - command.length) 0) ∧
      (command ++ List.replicate (commandLength - command.length) 0).length =
        commandLength ∧
      bytesToCommand (command ++ List.replicate (commandLength - command.length) 0) =
        command) ∧
    (∀ command : List ℕ, commandLength < command.length →
      commandToBytes command = none) := by
  constructor
  · intro command hlen hnz _
    have h1 : List.filter (fun b => decide (b ≠ 0)) command = command :=
      List.filter_eq_self.mpr (fun b hb => by simpa using hnz b hb)
    have h2 : List.filter (fun b => decide (b ≠ 0))
        (List.replicate (commandLength - command.length) 0) = [] := by
      simp [List.filter_eq_nil_iff]
    refine ⟨by simp [commandToBytes, hlen], ?_, ?_⟩
    · simp only [List.length_append, List.length_replicate]
      omega
    · simp only [bytesToCommand, List.filter_append]
      rw [h1, h2, List.append_nil]
  · intro command hlen
    simp [commandToBytes]
    omega

/-- Witness for C10 at the protocol tag version (seven ASCII bytes) and
at a thirteen-byte command. -/
theorem c10_command_roundtrip_witness :
    commandToBytes [118, 101, 114, 115, 105, 111, 110] =
      some [118, 101, 114, 115, 105, 111, 110, 0, 0, 0, 0, 0] ∧
    bytesToCommand [118, 101, 114, 115, 105, 111, 110, 0, 0, 0, 0, 0] =
      [118, 101, 114, 115, 105, 111, 110] ∧
    commandToBytes [97, 97, 97, 97, 97, 97, 97, 97, 97, 97, 97, 97, 97] = none := by
  have h := c10_command_roundtrip
  have h1 := h.1 [118, 101, 114, 115, 105, 111, 110] (by decide) (by decide) (by decide)
  have h2 := h.2 [97, 97, 97, 97, 97, 97, 97, 97, 97, 97, 97, 97, 97] (by decide)
  exact ⟨by simpa using h1.1, by simpa using h1.2.2, h2⟩

/-! ## Claim C1 -/

/-- Correctness of the search loop: starting at any nonce at or below the
least satisfying nonce, with enough iterations left to reach it, the loop
returns that nonce together with its hash. -/
theorem powRunAux_found (env : Env) (prev mroot : List ℕ) (ts : ℤ) (n₀ : ℕ)
    (hP : bytesToNat (env.sha (powData prev mroot ts (n₀ : ℤ))) < powTarget) :
    ∀ fuel start : ℕ, ∀ hs0 : List ℕ, start ≤ n₀ → n₀ < start + fuel →
    (∀ m : ℕ, start ≤ m → m < n₀ →
      ¬ bytesToNat (env.sha (powData prev mroot ts (m : ℤ))) < powTarget) →
    powRunAux env prev mroot ts fuel start hs0 =
      (n₀, env.sha (powData prev mroot ts (n₀ : ℤ))) := by
  intro fuel
  induction fuel with
  | zero => intro start hs0 h1 h2 _; omega
  | succ f ih =>
    intro start hs0 h1 h2 hmin
    rw [powRunAux]
    by_cases hs : start = n₀
    · subst hs
      simp [hP]
    · have hlt : start < n₀ := lt_of_le_of_ne h1 hs
      have hnot := hmin start le_rfl hlt
      simp only [hnot, if_false]
      exact ih (start + 1) _ (by omega) (by omega)
        (fun m hm1 hm2 => hmin m (by omega) hm2)

/-- C1: proof-of-work search and validation agree.  When the transaction
Merkle root exists and some nonce below maxNonce satisfies the target
inequality, Run returns the least such nonce with its hash, the hash read
as a big-endian integer is strictly below the target 1 shifted left by
232, and the block NewBlock builds from that result passes Validate. -/
theorem c1_pow_run_validate (env : Env) (ts : ℤ) (txs : List Transaction)
    (prev : List ℕ) (height : ℤ) (mroot : List ℕ) (n₀ : ℕ)
    (hm : hashTransactionsOf env.sha txs = some mroot)
    (hP : bytesToNat (env.sha (powData prev mroot ts (n₀ : ℤ))) < powTarget)
    (hmin : ∀ m : ℕ, m < n₀ →
      ¬ bytesToNat (env.sha (powData prev mroot ts (m : ℤ))) < powTarget)
    (hn : n₀ < maxNonce) :
    powRun env (preBlock ts txs prev height) =
      some (n₀, env.sha (powData prev mroot ts (n₀ : ℤ))) ∧
    ∃ bl, newBlock env ts txs prev height = some bl ∧
      bl.nonce = (n₀ : ℤ) ∧
      bl.hash = env.sha (powData prev mroot ts (n₀ : ℤ)) ∧
      bytesToNat bl.hash < powTarget ∧
      powValidate env bl = some true := by
  have hrun : powRun env (preBlock ts txs prev height) =
      some (n₀, env.sha (powData prev mroot ts (n₀ : ℤ))) := by
    simp only [powRun, preBlock, hm, Option.map_some']
    rw [powRunAux_found env prev mroot ts n₀ hP maxNonce 0 _ (Nat.zero_le _)
      (by omega) (fun m _ hm2 => hmin m hm2)]
  refine ⟨hrun, ?_⟩
  refine ⟨{ preBlock ts txs prev height with
      hash := env.sha (powData prev mroot ts (n₀ : ℤ)), nonce := (n₀ : ℤ) },
    ?_, rfl, rfl, hP, ?_⟩
  · rw [newBlock, hrun]
    rfl
  · rw [powValidate]
    simp only [preBlock, hm, Option.map_some', Option.some_inj]
    simpa using hP

/-- A concrete instantiation of the library functions, used by the
witnesses: the hash of anything is the single zero byte, the renderers
and encoders are trivial. -/
def baseEnv : Env where
  sha := fun _ => [0]
  fmtHex := fun _ => []
  gobTx := fun _ => []
  serB := fun _ => []
  deserB := fun _ => none
  hashPub := fun _ => []
  b58enc := fun l => l
  b58dec := fun l => l

/-- A concrete transaction with no inputs and no outputs, enough to feed
the proof-of-work witness. -/
def txC1 : Transaction := ⟨[1], [], []⟩

/-- Witness for C1: with the single-zero-byte hash function everything is
below the target at once, so Run returns nonce 0 and NewBlock yields a
block that Validate accepts. -/
theorem c1_pow_run_validate_witness :
    powRun baseEnv (preBlock 0 [txC1] [] 0) =
      some (0, baseEnv.sha (powData [] [0] 0 (0 : ℤ))) ∧
    ∃ bl, newBlock baseEnv 0 [txC1] [] 0 = some bl ∧
      bl.nonce = ((0 : ℕ) : ℤ) ∧
      bl.hash = baseEnv.sha (powData [] [0] 0 (0 : ℤ)) ∧
      bytesToNat bl.hash < powTarget ∧
      powValidate baseEnv bl = some true :=
  c1_pow_run_validate baseEnv 0 [txC1] [] 0 [0] 0 rfl (by decide)
    (fun m hm => absurd hm (Nat.not_lt_zero m)) (by decide)

/-! ## Claim C2 -/

/-- C2: AddBlock on a well-formed store (the "l" key names a stored block
that decodes).  If the hash of the block is already a key of the blocks
bucket, AddBlock fails with the block-exists error and hands back the
state unchanged (the write transaction rolls back).  Otherwise the
serialized block is stored under its hash, the "l" key and the in-memory
tip move to the new hash exactly when the new height is strictly larger
than the tip height, and every other key keeps its value. -/
theorem c2_addBlock (env : Env) (st : BCState) (bl : Block)
    (lh lbBytes : List ℕ) (lastBlock : Block)
    (hl : bget st.bucket lKey = some lh)
    (hlb : bget st.bucket lh = some lbBytes)
    (hdec : env.deserB lbBytes = some lastBlock) :
    (∀ v, bget st.bucket bl.hash = some v →
      addBlock env st bl = (st, some GlockError.blockExists)) ∧
    (bget st.bucket bl.hash = none →
      ∃ stOut, addBlock env st bl = (stOut, none) ∧
        bget stOut.bucket bl.hash = some (env.serB bl) ∧
        stOut.tip = (if lastBlock.height < bl.height then bl.hash else st.tip) ∧
        bget stOut.bucket lKey =
          some (if lastBlock.height < bl.height then bl.hash else lh) ∧
        (∀ k, k ≠ bl.hash → k ≠ lKey → bget stOut.bucket k = bget st.bucket k)) := by
  constructor
  · intro v hv
    simp only [addBlock, hv]
  · intro habs
    have hkey_ne : lKey ≠ bl.hash := by
      intro he
      rw [← he, hl] at habs
      exact Option.noConfusion habs
    have hlh_ne : lh ≠ bl.hash := by
      intro he
      rw [← he, hlb] at habs
      exact Option.noConfusion habs
    have h1 : bget (bput st.bucket bl.hash (env.serB bl)) lKey = some lh := by
      rw [bget_bput_other st.bucket bl.hash (env.serB bl) lKey hkey_ne]
      exact hl
    have h2 : bget (bput st.bucket bl.hash (env.serB bl)) lh = some lbBytes := by
      rw [bget_bput_other st.bucket bl.hash (env.serB bl) lh hlh_ne]
      exact hlb
    by_cases hh : lastBlock.height < bl.height
    · refine ⟨⟨bl.hash, bput (bput st.bucket bl.hash (env.serB bl)) lKey bl.hash⟩, ?_, ?_, ?_, ?_, ?_⟩
      · simp only [addBlock, habs, h1, h2, hdec, hh, if_true]
      · rw [bget_bput_other _ lKey bl.hash bl.hash (Ne.symm hkey_ne)]
        exact bget_bput_same st.bucket bl.hash (env.serB bl)
      · simp [hh]
      · rw [if_pos hh]
        exact bget_bput_same _ lKey bl.hash
      · intro k hk1 hk2
        rw [bget_bput_other _ lKey bl.hash k hk2,
          bget_bput_other st.bucket bl.hash (env.serB bl) k hk1]
    · refine ⟨⟨st.tip, bput st.bucket bl.hash (env.serB bl)⟩, ?_, ?_, ?_, ?_, ?_⟩
      · simp only [addBlock, habs, h1, h2, hdec, hh, if_false]
      · exact bget_bput_same st.bucket bl.hash (env.serB bl)
      · simp [hh]
      · rw [if_neg hh]
        exact h1
      · intro k hk1 _
        exact bget_bput_other st.bucket bl.hash (env.serB bl) k hk1

/-- The decoded tip block of the concrete witness store: height zero,
empty previous hash, and one stored transaction (the one the later
witnesses spend). -/
def lastBlockC2 : Block := ⟨0, [⟨[1], [], [⟨7, [9]⟩]⟩], [], [7], 0, 0⟩

/-- A concrete environment whose block decoder recognizes the stored tip
bytes. -/
def envC2 : Env :=
  { baseEnv with serB := fun _ => [9],
                 deserB := fun bs => if bs = [3] then some lastBlockC2 else none }

/-- A concrete well-formed store: the "l" key points at the stored tip
block with hash seven. -/
def stC2 : BCState := ⟨[7], [(lKey, [7]), ([7], [3])]⟩

/-- A fresh block of height five, absent from the store. -/
def blC2 : Block := ⟨0, [], [], [8], 0, 5⟩

/-- A block whose hash collides with the stored tip. -/
def blC2dup : Block := ⟨0, [], [], [7], 0, 9⟩

/-- Witness for C2 at the concrete store: the duplicate insert fails with
block-exists and changes nothing, the fresh taller insert is stored and
becomes the tip. -/
theorem c2_addBlock_witness :
    addBlock envC2 stC2 blC2dup = (stC2, some GlockError.blockExists) ∧
    (∃ stOut, addBlock envC2 stC2 blC2 = (stOut, none) ∧
      bget stOut.bucket blC2.hash = some (envC2.serB blC2) ∧
      stOut.tip = (if lastBlockC2.height < blC2.height then blC2.hash else stC2.tip) ∧
      bget stOut.bucket lKey =
        some (if lastBlockC2.height < blC2.height then blC2.hash else [7]) ∧
      (∀ k, k ≠ blC2.hash → k ≠ lKey → bget stOut.bucket k = bget stC2.bucket k)) := by
  have hA := c2_addBlock envC2 stC2 blC2dup [7] [3] lastBlockC2 rfl rfl rfl
  have hB := c2_addBlock envC2 stC2 blC2 [7] [3] lastBlockC2 rfl rfl rfl
  exact ⟨hA.1 [3] rfl, hB.2 rfl⟩

/-! ## Claim C5 -/

/-- A concrete coinbase transaction: one input with empty previous txid,
previous output index -1, no signature, opaque data in the public key
field, and one subsidy output. -/
def cbC5 : Transaction := ⟨[2], [⟨[], -1, [], [82]⟩], [⟨10, [5]⟩]⟩

/-- Counterexample for C5: Transaction.Verify does abort on a coinbase.
The claim says Verify returns true for every coinbase transaction and in
particular does not fail on the out-of-range output index; but the
function has no coinbase guard, so it dereferences output -1 of the
zero-value previous transaction, a Go runtime panic (none), for any
prevTXs map - here the empty one. -/
theorem c5_cex_verify_coinbase_panics :
    txVerify baseEnv (fun _ _ _ => true) cbC5 [] = none := rfl

/-- C5 amended: the coinbase guard lives one layer up, in
Blockchain.VerifyTransaction, which returns true for every coinbase
transaction over any chain state without invoking Transaction.Verify;
Transaction.Verify itself aborts on the coinbase input. -/
theorem c5_verifyTransaction_coinbase (env : Env)
    (ecV : ℕ × ℕ → List ℕ → ℕ × ℕ → Bool) (fuel : ℕ) (st : BCState)
    (tx : Transaction) (hcb : isCoinbase tx = true) :
    verifyTransaction env ecV fuel st tx = some (.ok true) := by
  simp [verifyTransaction, hcb]

/-- Witness for C5 at the concrete coinbase and an empty store. -/
theorem c5_verifyTransaction_coinbase_witness :
    isCoinbase cbC5 = true ∧
    verifyTransaction baseEnv (fun _ _ _ => true) 0 ⟨[], []⟩ cbC5 = some (.ok true) :=
  ⟨by decide, c5_verifyTransaction_coinbase baseEnv (fun _ _ _ => true) 0 ⟨[], []⟩ cbC5 (by decide)⟩

/-! ## Claim C7 -/

/-- C7 amended: the block handler performs no proof-of-work validation.
For any well-formed store and any decoded block absent from it - in
particular one whose stored nonce fails the PoW inequality - handleBlock
stores the serialized block under its hash (AddBlock's result is
discarded, and nothing in the handler calls Validate). -/
theorem c7_handleBlock_stores_invalid_pow (env : Env) (st : BCState)
    (blockBytes : List ℕ) (bl : Block) (lh lbBytes : List ℕ) (lastBlock : Block)
    (hd : env.deserB blockBytes = some bl)
    (hl : bget st.bucket lKey = some lh)
    (hlb : bget st.bucket lh = some lbBytes)
    (hdec : env.deserB lbBytes = some lastBlock)
    (habs : bget st.bucket bl.hash = none)
    (hpow : powValidate env bl = some false) :
    bget (handleBlock env st blockBytes).bucket bl.hash = some (env.serB bl) := by
  have hkey_ne : lKey ≠ bl.hash := by
    intro he
    rw [← he, hl] at habs
    exact Option.noConfusion habs
  have hlh_ne : lh ≠ bl.hash := by
    intro he
    rw [← he, hlb] at habs
    exact Option.noConfusion habs
  have h1 : bget (bput st.bucket bl.hash (env.serB bl)) lKey = some lh := by
    rw [bget_bput_other st.bucket bl.hash (env.serB bl) lKey hkey_ne]
    exact hl
  have h2 : bget (bput st.bucket bl.hash (env.serB bl)) lh = some lbBytes := by
    rw [bget_bput_other st.bucket bl.hash (env.serB bl) lh hlh_ne]
    exact hlb
  simp only [handleBlock, hd]
  by_cases hh : lastBlock.height < bl.height
  · simp only [addBlock, habs, h1, h2, hdec, hh, if_true]
    rw [bget_bput_other _ lKey bl.hash bl.hash (Ne.symm hkey_ne)]
    exact bget_bput_same st.bucket bl.hash (env.serB bl)
  · simp only [addBlock, habs, h1, h2, hdec, hh, if_false]
    exact bget_bput_same st.bucket bl.hash (env.serB bl)

/-- The incoming block of the C7 counterexample: nonce zero is stored,
but its recomputed hash is far above the target, so PoW validation
fails. -/
def blC7 : Block := ⟨0, [txC1], [], [8], 0, 5⟩

/-- An environment whose SHA-256 stand-in returns thirty-two 0xff bytes,
so every block hash sits far above the proof-of-work target, and whose
block decoder recognizes the stored tip bytes and the incoming payload. -/
def envC7 : Env :=
  { baseEnv with
      sha := fun _ => List.replicate 32 255,
      serB := fun _ => [9],
      deserB := fun bs =>
        if bs = [3] then some lastBlockC2
        else if bs = [4] then some blC7
        else none }

/-- Counterexample for C7: the claim says a block failing PoW validation
is never added by the block handler; here a concrete failing block is
absent from the store, the handler runs, and the block lands in the
blocks bucket. -/
theorem c7_cex_invalid_pow_block_added :
    powValidate envC7 blC7 = some false ∧
    bget stC2.bucket blC7.hash = none ∧
    bget (handleBlock envC7 stC2 [4]).bucket blC7.hash = some (envC7.serB blC7) := by
  refine ⟨by decide, by decide, by decide⟩

/-- Witness for C7 applying the amended theorem at the concrete store
and payload. -/
theorem c7_handleBlock_stores_invalid_pow_witness :
    bget (handleBlock envC7 stC2 [4]).bucket blC7.hash = some (envC7.serB blC7) :=
  c7_handleBlock_stores_invalid_pow envC7 stC2 [4] blC7 [7] [3] lastBlockC2
    (by decide) rfl rfl (by decide) rfl (by decide)

/-! ## Characterization of the Sign and Verify loops (claims C4, C9) -/

/-- Splitting a byte string in half and reading each half big-endian,
as Verify does for the stored signature (r, s) and the stored public
key (X, Y). -/
def splitPair (bs : List ℕ) : ℕ × ℕ :=
  (bytesToNat (bs.take (bs.length / 2)), bytesToNat (bs.drop (bs.length / 2)))

/-- The data both Sign and Verify hand to the ECDSA primitive for the
input at position i: the fmt rendering of the trimmed copy whose input i
carries the public key hash of the referenced output.  None when the
referenced output index is out of range (a Go panic in both
functions). -/
def signingData (env : Env) (prevs : List (List ℕ × Transaction))
    (tx : Transaction) (i : ℕ) (vin : TXInput) : Option (List ℕ) :=
  (listGetZ (lookupTx prevs vin.txid).vout vin.vout).map
    (fun out => env.fmtHex (setInputKey out.publicKeyHash i (trimmedCopy tx)))

/-- The outcome of the Sign loop, expressed without the mutable copy:
each input is signed over the signingData of its own position. -/
def signSpec (env : Env) (ecS : ℕ → List ℕ → ℕ × ℕ)
    (prevs : List (List ℕ × Transaction)) (tx : Transaction) :
    ℕ → List TXInput → Option (List (List ℕ))
  | _, [] => some []
  | i, vin :: rest =>
    match listGetZ (lookupTx prevs vin.txid).vout vin.vout with
    | none => none
    | some out =>
      let rs := ecS i (env.fmtHex (setInputKey out.publicKeyHash i (trimmedCopy tx)))
      (signSpec env ecS prevs tx (i + 1) rest).map
        (fun sigs => (natBytes rs.1 ++ natBytes rs.2) :: sigs)

/-- The outcome of the Verify loop, expressed without the mutable copy:
each input is checked with the half-splits of its stored signature and
public key against the signingData of its own position. -/
def verifySpec (env : Env) (ecV : ℕ × ℕ → List ℕ → ℕ × ℕ → Bool)
    (prevs : List (List ℕ × Transaction)) (tx : Transaction) :
    ℕ → List TXInput → Option Bool
  | _, [] => some true
  | i, vin :: rest =>
    match listGetZ (lookupTx prevs vin.txid).vout vin.vout with
    | none => none
    | some out =>
      if ecV (splitPair vin.publicKey)
          (env.fmtHex (setInputKey out.publicKeyHash i (trimmedCopy tx)))
          (splitPair vin.signature) then
        verifySpec env ecV prevs tx (i + 1) rest
      else some false

/-- Undoing the two successive in-place updates of a loop iteration
restores the copy, provided the touched input already had an empty
signature and public key (as every input of a trimmed copy does). -/
theorem clearInputKey_setInputKey (c : Transaction) (pkh : List ℕ) (i : ℕ)
    (a : TXInput) (h : c.vin.get? i = some a)
    (hsig : a.signature = []) (hpk : a.publicKey = []) :
    clearInputKey i (setInputKey pkh i c) = c := by
  have hcomp :
      clearInputKey i (setInputKey pkh i c) =
        { c with vin := modifyAt (fun v => ⟨v.txid, v.vout, [], []⟩) i c.vin } := by
    simp only [clearInputKey, setInputKey, modifyAt_modifyAt]
  rw [hcomp, modifyAt_set_get _ i c.vin a h]
  cases a
  simp_all

/-- The input at position i of a trimmed copy. -/
theorem trimmedCopy_vin_get? (tx : Transaction) (i : ℕ) (vin : TXInput)
    (h : tx.vin.get? i = some vin) :
    (trimmedCopy tx).vin.get? i = some ⟨vin.txid, vin.vout, [], []⟩ := by
  have hv : (trimmedCopy tx).vin = tx.vin.map (fun v => ⟨v.txid, v.vout, [], []⟩) := rfl
  rw [hv, List.get?_map, h]
  rfl

/-- The Verify loop started at position i on a fresh trimmed copy equals
its copy-free specification: the per-iteration mutation of the copy is
undone at the end of every iteration, so each input is checked against
the signingData of its own position. -/
theorem txVerifyAux_eq_spec (env : Env) (ecV : ℕ × ℕ → List ℕ → ℕ × ℕ → Bool)
    (prevs : List (List ℕ × Transaction)) (tx : Transaction) :
    ∀ rest : List TXInput, ∀ i : ℕ, tx.vin.drop i = rest →
    txVerifyAux env ecV prevs rest i (trimmedCopy tx) =
      verifySpec env ecV prevs tx i rest := by
  intro rest
  induction rest with
  | nil => intro i _; rfl
  | cons vin rest ih =>
    intro i hdrop
    have hget : tx.vin.get? i = some vin := by
      have h0 : (tx.vin.drop i).get? 0 = some vin := by rw [hdrop]; rfl
      rwa [List.get?_drop, Nat.add_zero] at h0
    have hdrop1 : tx.vin.drop (i + 1) = rest := by
      have := congrArg List.tail hdrop
      simpa [List.tail_drop] using this
    have hstate :
        clearInputKey i (setInputKey
          ((listGetZ (lookupTx prevs vin.txid).vout vin.vout).getD default).publicKeyHash
          i (trimmedCopy tx)) = trimmedCopy tx :=
      clearInputKey_setInputKey _ _ _ _ (trimmedCopy_vin_get? tx i vin hget) rfl rfl
    rw [txVerifyAux, verifySpec]
    cases hout : listGetZ (lookupTx prevs vin.txid).vout vin.vout with
    | none => rfl
    | some out =>
      rw [hout] at hstate
      simp only [splitPair, Option.getD_some] at hstate ⊢
      rw [hstate]
      by_cases hec : ecV
          (bytesToNat (List.take (vin.publicKey.length / 2) vin.publicKey),
            bytesToNat (List.drop (vin.publicKey.length / 2) vin.publicKey))
          (env.fmtHex (setInputKey out.publicKeyHash i (trimmedCopy tx)))
          (bytesToNat (List.take (vin.signature.length / 2) vin.signature),
            bytesToNat (List.drop (vin.signature.length / 2) vin.signature)) = true
      · rw [if_pos hec, if_pos hec, ih (i + 1) hdrop1]
      · rw [if_neg hec, if_neg hec]

/-- The Sign loop started at position i on a fresh trimmed copy equals
its copy-free specification: each input is signed over the signingData
of its own position. -/
theorem txSignAux_eq_spec (env : Env) (ecS : ℕ → List ℕ → ℕ × ℕ)
    (prevs : List (List ℕ × Transaction)) (tx : Transaction) :
    ∀ rest : List TXInput, ∀ i : ℕ, (trimmedCopy tx).vin.drop i = rest →
    txSignAux env ecS prevs rest i (trimmedCopy tx) =
      signSpec env ecS prevs tx i rest := by
  intro rest
  induction rest with
  | nil => intro i _; rfl
  | cons vin rest ih =>
    intro i hdrop
    have hget : (trimmedCopy tx).vin.get? i = some vin := by
      have h0 : ((trimmedCopy tx).vin.drop i).get? 0 = some vin := by rw [hdrop]; rfl
      rwa [List.get?_drop, Nat.add_zero] at h0
    have hmap : (trimmedCopy tx).vin = tx.vin.map (fun v => ⟨v.txid, v.vout, [], []⟩) :=
      rfl
    have hget' : (tx.vin.get? i).map
        (fun v => (⟨v.txid, v.vout, [], []⟩ : TXInput)) = some vin := by
      rw [← List.get?_map, ← hmap]
      exact hget
    obtain ⟨v, hv, hfv⟩ := Option.map_eq_some'.mp hget'
    have hdrop1 : (trimmedCopy tx).vin.drop (i + 1) = rest := by
      have := congrArg List.tail hdrop
      simpa [List.tail_drop] using this
    have hsig : vin.signature = [] := by rw [← hfv]
    have hpk : vin.publicKey = [] := by rw [← hfv]
    have htxid : vin.txid = v.txid := by rw [← hfv]
    have hvout : vin.vout = v.vout := by rw [← hfv]
    have hstate :
        clearInputKey i (setInputKey
          ((listGetZ (lookupTx prevs vin.txid).vout vin.vout).getD default).publicKeyHash
          i (trimmedCopy tx)) = trimmedCopy tx :=
      clearInputKey_setInputKey _ _ _ _ hget hsig hpk
    rw [txSignAux, signSpec]
    cases hout : listGetZ (lookupTx prevs vin.txid).vout vin.vout with
    | none => rfl
    | some out =>
      rw [hout] at hstate
      simp only [Option.getD_some] at hstate
      dsimp only
      rw [hstate, ih (i + 1) hdrop1]

/-- Transaction.Verify in terms of the copy-free specification. -/
theorem txVerify_eq_spec (env : Env) (ecV : ℕ × ℕ → List ℕ → ℕ × ℕ → Bool)
    (tx : Transaction) (prevs : List (List ℕ × Transaction)) :
    txVerify env ecV tx prevs = verifySpec env ecV prevs tx 0 tx.vin :=
  txVerifyAux_eq_spec env ecV prevs tx tx.vin 0 (by simp)

/-- Transaction.Sign of a non-coinbase transaction in terms of the
copy-free specification: the produced signatures are zipped into the
inputs of the real transaction. -/
theorem txSign_eq_spec (env : Env) (ecS : ℕ → List ℕ → ℕ × ℕ)
    (tx : Transaction) (prevs : List (List ℕ × Transaction))
    (hcb : isCoinbase tx = false) :
    txSign env ecS tx prevs =
      (signSpec env ecS prevs tx 0 (trimmedCopy tx).vin).map
        (fun sigs =>
          { tx with vin := List.zipWith (fun v s => { v with signature := s }) tx.vin sigs }) := by
  rw [txSign, if_neg (by simp [hcb]),
    txSignAux_eq_spec env ecS prevs tx (trimmedCopy tx).vin 0 (by simp)]

theorem zipWith_get?_some (f : α → β → γ) :
    ∀ (l1 : List α) (l2 : List β) (j : ℕ) (a : α) (b : β),
    l1.get? j = some a → l2.get? j = some b →
    (List.zipWith f l1 l2).get? j = some (f a b) := by
  intro l1
  induction l1 with
  | nil => intro l2 j a b h1 _; simp at h1
  | cons x xs ih =>
    intro l2 j a b h1 h2
    cases l2 with
    | nil => simp at h2
    | cons y ys =>
      cases j with
      | zero =>
        simp only [List.get?] at h1 h2
        cases h1; cases h2
        rfl
      | succ j =>
        simp only [List.get?] at h1 h2
        simpa [List.zipWith] using ih ys j a b h1 h2

/-- Splitting the concatenation of the stripped encodings of r and s
back in half recovers r and s exactly when both halves have the same
length. -/
theorem splitPair_natBytes_append (r s : ℕ)
    (h : (natBytes r).length = (natBytes s).length) :
    splitPair (natBytes r ++ natBytes s) = (r, s) := by
  have hlen : (natBytes r ++ natBytes s).length / 2 = (natBytes r).length := by
    simp only [List.length_append]
    omega
  rw [splitPair, hlen]
  rw [List.take_left, List.drop_left]
  rw [bytesToNat_natBytes, bytesToNat_natBytes]

/-- The signature list produced by the Sign specification: one signature
per input, each the concatenation of the stripped r and s bytes of the
signer outcome over the signingData of its position. -/
theorem signSpec_some (env : Env) (ecS : ℕ → List ℕ → ℕ × ℕ)
    (prevs : List (List ℕ × Transaction)) (tx : Transaction) :
    ∀ (rest : List TXInput) (i : ℕ) (sigs : List (List ℕ)),
    signSpec env ecS prevs tx i rest = some sigs →
    sigs.length = rest.length ∧
    (∀ j vin, rest.get? j = some vin → ∃ out,
      listGetZ (lookupTx prevs vin.txid).vout vin.vout = some out ∧
      sigs.get? j = some (
        natBytes (ecS (i + j)
          (env.fmtHex (setInputKey out.publicKeyHash (i + j) (trimmedCopy tx)))).1 ++
        natBytes (ecS (i + j)
          (env.fmtHex (setInputKey out.publicKeyHash (i + j) (trimmedCopy tx)))).2)) := by
  intro rest
  induction rest with
  | nil =>
    intro i sigs h
    rw [signSpec] at h
    cases h
    exact ⟨rfl, fun j vin hj => by simp at hj⟩
  | cons vin rest ih =>
    intro i sigs h
    rw [signSpec] at h
    cases hout : listGetZ (lookupTx prevs vin.txid).vout vin.vout with
    | none => rw [hout] at h; exact absurd h (by simp)
    | some out =>
      rw [hout] at h
      dsimp only at h
      obtain ⟨sigs', hs', hsigs⟩ := Option.map_eq_some'.mp h
      obtain ⟨hlen, hprops⟩ := ih (i + 1) sigs' hs'
      subst hsigs
      refine ⟨by simp [hlen], ?_⟩
      intro j vin' hj
      cases j with
      | zero =>
        simp only [List.get?] at hj
        cases hj
        exact ⟨out, hout, by simpa using rfl⟩
      | succ j =>
        simp only [List.get?] at hj ⊢
        obtain ⟨out', ho', hg'⟩ := hprops j vin' hj
        refine ⟨out', ho', ?_⟩
        rw [hg']
        have : i + 1 + j = i + (j + 1) := by omega
        rw [this]

/-- The Sign specification succeeds whenever every input references an
existing output of its previous transaction. -/
theorem signSpec_isSome (env : Env) (ecS : ℕ → List ℕ → ℕ × ℕ)
    (prevs : List (List ℕ × Transaction)) (tx : Transaction) :
    ∀ (rest : List TXInput) (i : ℕ),
    (∀ vin ∈ rest, listGetZ (lookupTx prevs vin.txid).vout vin.vout ≠ none) →
    (signSpec env ecS prevs tx i rest).isSome := by
  intro rest
  induction rest with
  | nil => intro i _; rfl
  | cons vin rest ih =>
    intro i href
    rw [signSpec]
    cases hout : listGetZ (lookupTx prevs vin.txid).vout vin.vout with
    | none => exact absurd hout (href vin (by simp))
    | some out =>
      dsimp only
      have := ih (i + 1) (fun v hv => href v (by simp [hv]))
      cases hs : signSpec env ecS prevs tx (i + 1) rest with
      | none => rw [hs] at this; exact absurd this (by simp)
      | some sigs => simp

/-- The Verify specification accepts when every input finds its
referenced output and its verifier call accepts. -/
theorem verifySpec_all_true (env : Env) (ecV : ℕ × ℕ → List ℕ → ℕ × ℕ → Bool)
    (prevs : List (List ℕ × Transaction)) (tx : Transaction) :
    ∀ (rest : List TXInput) (i : ℕ),
    (∀ j vin, rest.get? j = some vin → ∃ out,
      listGetZ (lookupTx prevs vin.txid).vout vin.vout = some out ∧
      ecV (splitPair vin.publicKey)
        (env.fmtHex (setInputKey out.publicKeyHash (i + j) (trimmedCopy tx)))
        (splitPair vin.signature) = true) →
    verifySpec env ecV prevs tx i rest = some true := by
  intro rest
  induction rest with
  | nil => intro i _; rfl
  | cons vin rest ih =>
    intro i hall
    obtain ⟨out, hout, hec⟩ := hall 0 vin rfl
    rw [verifySpec, hout]
    dsimp only
    rw [Nat.add_zero] at hec
    rw [if_pos hec]
    refine ih (i + 1) ?_
    intro j vin' hj
    obtain ⟨out', ho', he'⟩ := hall (j + 1) vin' (by simpa using hj)
    have : i + (j + 1) = i + 1 + j := by omega
    rw [this] at he'
    exact ⟨out', ho', he'⟩

theorem map_trim_zipWith :
    ∀ (l : List TXInput) (sigs : List (List ℕ)), sigs.length = l.length →
    (List.zipWith (fun v s => { v with signature := s }) l sigs).map
      (fun vin => (⟨vin.txid, vin.vout, [], []⟩ : TXInput)) =
      l.map (fun vin => ⟨vin.txid, vin.vout, [], []⟩) := by
  intro l
  induction l with
  | nil => intro sigs _; simp
  | cons v vs ih =>
    intro sigs h
    cases sigs with
    | nil => simp at h
    | cons s ss => simpa using ih ss (by simpa using h)

/-- Storing signatures into the inputs does not change what the trimmed
copy sees, as long as one signature is stored per input. -/
theorem trimmedCopy_store_sigs (tx : Transaction) (sigs : List (List ℕ))
    (h : sigs.length = tx.vin.length) :
    trimmedCopy { tx with
      vin := List.zipWith (fun v s => { v with signature := s }) tx.vin sigs } =
      trimmedCopy tx := by
  simp only [trimmedCopy, Transaction.mk.injEq, true_and]
  refine ⟨map_trim_zipWith tx.vin sigs h, ?_⟩
  trivial

/-! ## Claim C4 -/

/-- C4 (amended): sign-then-verify round trip.  For a non-coinbase
transaction whose every input references an existing output of its
previous transaction, and for every outcome of the randomized signer
that the verifying primitive accepts under the stored key, Verify
returns true provided the stripped byte encodings of r and of s have
equal length - the condition under which splitting the stored signature
in half recovers the pair the signer produced.  (The counterexample of
this claim shows the round trip breaks without that condition.) -/
theorem c4_sign_verify_roundtrip (env : Env) (ecS : ℕ → List ℕ → ℕ × ℕ)
    (ecV : ℕ × ℕ → List ℕ → ℕ × ℕ → Bool) (tx : Transaction)
    (prevs : List (List ℕ × Transaction))
    (hcb : isCoinbase tx = false)
    (href : ∀ vin ∈ tx.vin, listGetZ (lookupTx prevs vin.txid).vout vin.vout ≠ none)
    (hacc : ∀ i vin out, tx.vin.get? i = some vin →
      listGetZ (lookupTx prevs vin.txid).vout vin.vout = some out →
      ecV (splitPair vin.publicKey)
        (env.fmtHex (setInputKey out.publicKeyHash i (trimmedCopy tx)))
        (ecS i (env.fmtHex (setInputKey out.publicKeyHash i (trimmedCopy tx)))) = true)
    (hlen : ∀ i d, (natBytes (ecS i d).1).length = (natBytes (ecS i d).2).length) :
    ∃ tx', txSign env ecS tx prevs = some tx' ∧
      txVerify env ecV tx' prevs = some true := by
  have hmap : (trimmedCopy tx).vin =
      tx.vin.map (fun v => ⟨v.txid, v.vout, [], []⟩) := rfl
  have href' : ∀ vin ∈ (trimmedCopy tx).vin,
      listGetZ (lookupTx prevs vin.txid).vout vin.vout ≠ none := by
    intro vin hv
    rw [hmap] at hv
    obtain ⟨v, hv', rfl⟩ := List.mem_map.mp hv
    exact href v hv'
  have hsome := signSpec_isSome env ecS prevs tx (trimmedCopy tx).vin 0 href'
  obtain ⟨sigs, hs⟩ := Option.isSome_iff_exists.mp hsome
  obtain ⟨hslen, hprops⟩ := signSpec_some env ecS prevs tx (trimmedCopy tx).vin 0 sigs hs
  have hslen' : sigs.length = tx.vin.length := by
    rw [hslen, hmap, List.length_map]
  refine ⟨{ tx with vin := List.zipWith (fun v s => { v with signature := s }) tx.vin sigs },
    ?_, ?_⟩
  · rw [txSign_eq_spec env ecS tx prevs hcb, hs]
    rfl
  · set tx' : Transaction :=
      { tx with vin := List.zipWith (fun v s => { v with signature := s }) tx.vin sigs }
      with htx'
    have hvin' : tx'.vin =
        List.zipWith (fun v s => { v with signature := s }) tx.vin sigs := by
      rw [htx']
    have hzlen : tx'.vin.length = tx.vin.length := by
      rw [hvin', List.length_zipWith, hslen']
      simp
    have htrim : trimmedCopy tx' = trimmedCopy tx :=
      trimmedCopy_store_sigs tx sigs hslen'
    rw [txVerify_eq_spec]
    refine verifySpec_all_true env ecV prevs tx' tx'.vin 0 ?_
    intro j vin' hj
    have hjlt : j < tx'.vin.length := by
      rcases Nat.lt_or_ge j tx'.vin.length with h | h
      · exact h
      · rw [List.get?_eq_none.mpr h] at hj
        exact Option.noConfusion hj
    have hjlt' : j < tx.vin.length := by omega
    obtain ⟨vj, hvj⟩ : ∃ v, tx.vin.get? j = some v := by
      cases h : tx.vin.get? j with
      | none => rw [List.get?_eq_none] at h; omega
      | some v => exact ⟨v, rfl⟩
    obtain ⟨sigj, hsigj⟩ : ∃ sg, sigs.get? j = some sg := by
      cases h : sigs.get? j with
      | none => rw [List.get?_eq_none] at h; omega
      | some v => exact ⟨v, rfl⟩
    have hzip := zipWith_get?_some (fun v s => { v with signature := s })
      tx.vin sigs j vj sigj hvj hsigj
    rw [hvin'] at hj
    rw [hzip] at hj
    cases hj
    obtain ⟨out, hout, hval⟩ := hprops j ⟨vj.txid, vj.vout, [], []⟩
      (trimmedCopy_vin_get? tx j vj hvj)
    rw [hsigj] at hval
    have hsigj_eq := Option.some_inj.mp hval
    refine ⟨out, hout, ?_⟩
    rw [htrim, hsigj_eq, Nat.zero_add,
      splitPair_natBytes_append _ _ (hlen j _)]
    exact hacc j vj out hvj hout

/-- An environment whose fmt renderer returns a fixed digest. -/
def envC4 : Env := { baseEnv with fmtHex := fun _ => [1] }

/-- A one-input non-coinbase transaction spending output 0 of the
previous transaction with id one. -/
def txC4 : Transaction := ⟨[6], [⟨[1], 0, [], [3, 4]⟩], [⟨5, [5]⟩]⟩

/-- The previous-transactions map for txC4. -/
def prevsC4 : List (List ℕ × Transaction) := [([1], ⟨[1], [], [⟨7, [9]⟩]⟩)]

/-- A signer outcome with halves of unequal stripped length: r is 256
(two bytes) and s is 1 (one byte). -/
def ecS4 : ℕ → List ℕ → ℕ × ℕ := fun _ _ => (256, 1)

/-- A verifying primitive that accepts exactly the produced pair
(256, 1) - as the honest ECDSA verifier does for the true signature of
this digest under this key. -/
def ecV4 : ℕ × ℕ → List ℕ → ℕ × ℕ → Bool := fun _ _ rs => rs = (256, 1)

/-- Counterexample for C4 as stated: Sign stores 256.bytes followed by
1.bytes, the three-byte string [1, 0, 1]; Verify splits it at half
length into r = 1 and s = 1 and hands (1, 1) to the primitive, which
accepts only the genuinely produced (256, 1), so verification returns
false even though every input was signed by the owner of the referenced
output.  The round trip therefore fails for this outcome of the
randomized signer. -/
theorem c4_cex_unequal_halves :
    txSign envC4 ecS4 txC4 prevsC4 =
      some ⟨[6], [⟨[1], 0, [1, 0, 1], [3, 4]⟩], [⟨5, [5]⟩]⟩ ∧
    txVerify envC4 ecV4 ⟨[6], [⟨[1], 0, [1, 0, 1], [3, 4]⟩], [⟨5, [5]⟩]⟩ prevsC4 =
      some false ∧
    ecV4 (splitPair [3, 4]) (envC4.fmtHex (setInputKey [9] 0 (trimmedCopy txC4)))
      (256, 1) = true := by
  refine ⟨by decide, by decide, by decide⟩

/-- Witness for the amended C4 at a signer outcome with equal-length
halves: r = 2 and s = 3 round-trip through the concatenation and the
half split, so Verify accepts. -/
theorem c4_sign_verify_roundtrip_witness :
    ∃ tx', txSign envC4 (fun _ _ => (2, 3)) txC4 prevsC4 = some tx' ∧
      txVerify envC4 (fun _ _ rs => rs = (2, 3)) tx' prevsC4 = some true :=
  c4_sign_verify_roundtrip envC4 (fun _ _ => (2, 3)) (fun _ _ rs => rs = (2, 3))
    txC4 prevsC4 (by decide) (by decide)
    (fun i vin out _ _ => rfl) (fun i d => rfl)

/-! ## Claim C9 -/

/-- C9 (amended): the digest Sign passes to ECDSA signing at input i,
and the one Verify passes to ECDSA verification there, are the same
byte string; but it is the fmt hex rendering (with a trailing newline)
of the trimmed copy whose input i holds the referenced output's public
key hash - the copy keeps the original id and no SHA-256 is applied -
not the Hash of the trimmed copy with its id cleared that the claim
describes.  The two specification functions spell that digest out as
fmtHex applied to setInputKey of the trimmed copy, and this theorem
says the Sign and Verify loops compute exactly them: the per-iteration
mutation of the shared copy is undone before the next input, so input i
is processed on a copy where only input i carries a public key hash. -/
theorem c9_digest_is_fmt_rendering (env : Env) (ecS : ℕ → List ℕ → ℕ × ℕ)
    (ecV : ℕ × ℕ → List ℕ → ℕ × ℕ → Bool) (tx : Transaction)
    (prevs : List (List ℕ × Transaction)) (hcb : isCoinbase tx = false) :
    txSign env ecS tx prevs =
      (signSpec env ecS prevs tx 0 (trimmedCopy tx).vin).map
        (fun sigs =>
          { tx with vin := List.zipWith (fun v s => { v with signature := s }) tx.vin sigs }) ∧
    txVerify env ecV tx prevs = verifySpec env ecV prevs tx 0 tx.vin :=
  ⟨txSign_eq_spec env ecS tx prevs hcb, txVerify_eq_spec env ecV tx prevs⟩

/-- An environment separating the two digest candidates: the fmt
rendering of any transaction is [1], while any SHA-256 output is [0]. -/
def envC9 : Env := { baseEnv with sha := fun _ => [0], fmtHex := fun _ => [1] }

/-- A signer whose output reveals the digest it received: r is the
big-endian value of the digest plus two. -/
def ecS9 : ℕ → List ℕ → ℕ × ℕ := fun _ d => (bytesToNat d + 2, 0)

/-- Counterexample for C9 as stated: the claim says the digest passed to
signing is Hash(trimmed copy with its id cleared), the SHA-256 of the
serialized copy, here [0]; the signature Sign would then store is [2].
The embedded Sign stores [3] instead, because the digest it actually
passes is the fmt hex rendering of the copy (id kept, no SHA-256),
here [1]. -/
theorem c9_cex_digest_not_hash :
    txSign envC9 ecS9 txC4 prevsC4 =
      some ⟨[6], [⟨[1], 0, [3], [3, 4]⟩], [⟨5, [5]⟩]⟩ ∧
    (natBytes (ecS9 0 (txHash envC9 (setInputKey [9] 0 (trimmedCopy txC4)))).1 ++
      natBytes (ecS9 0 (txHash envC9 (setInputKey [9] 0 (trimmedCopy txC4)))).2) = [2] ∧
    ([3] : List ℕ) ≠ [2] := by
  refine ⟨by decide, by decide, by decide⟩

/-- Witness for the amended C9 at the concrete one-input transaction. -/
theorem c9_digest_is_fmt_rendering_witness :
    txSign envC4 (fun _ _ => (1, 1)) txC4 prevsC4 =
      (signSpec envC4 (fun _ _ => (1, 1)) prevsC4 txC4 0 (trimmedCopy txC4).vin).map
        (fun sigs =>
          { txC4 with
            vin := List.zipWith (fun v s => { v with signature := s }) txC4.vin sigs }) ∧
    txVerify envC4 (fun _ _ _ => true) txC4 prevsC4 =
      verifySpec envC4 (fun _ _ _ => true) prevsC4 txC4 0 txC4.vin :=
  c9_digest_is_fmt_rendering envC4 (fun _ _ => (1, 1)) (fun _ _ _ => true)
    txC4 prevsC4 (by decide)

deriving instance DecidableEq for Except

/-! ## Claim C3 -/

/-- A prefix of transactions that all verify as valid does not change
the outcome of the verification loop. -/
theorem verifyAll_append_true (env : Env) (ecV : ℕ × ℕ → List ℕ → ℕ × ℕ → Bool)
    (fuel : ℕ) (st : BCState) (l : List Transaction) :
    ∀ pre : List Transaction,
    (∀ tx ∈ pre, verifyTransaction env ecV fuel st tx = some (.ok true)) →
    verifyAll env ecV fuel st (pre ++ l) = verifyAll env ecV fuel st l := by
  intro pre
  induction pre with
  | nil => intro _; rfl
  | cons tx pre ih =>
    intro hall
    rw [List.cons_append, verifyAll, hall tx (by simp)]
    exact ih (fun t ht => hall t (by simp [ht]))

/-- The verification loop succeeds when every transaction verifies. -/
theorem verifyAll_all_true (env : Env) (ecV : ℕ × ℕ → List ℕ → ℕ × ℕ → Bool)
    (fuel : ℕ) (st : BCState) :
    ∀ txs : List Transaction,
    (∀ tx ∈ txs, verifyTransaction env ecV fuel st tx = some (.ok true)) →
    verifyAll env ecV fuel st txs = some (.ok ()) := by
  intro txs
  induction txs with
  | nil => intro _; rfl
  | cons tx rest ih =>
    intro hall
    rw [verifyAll, hall tx (by simp)]
    exact ih (fun t ht => hall t (by simp [ht]))

/-- C3 (amended): MineBlock on a well-formed store.  First conjunct: the
first transaction that verifies as invalid - with every transaction
before it verifying as valid - aborts mining with the
invalid-transaction error and the state unchanged.  Second conjunct:
when every transaction verifies and the Merkle construction over the
transaction ids succeeds (the claim as stated fails on five or more
transactions, where HashTransactions panics inside the proof of work -
see the counterexample), the mined block carries the tip hash as its
previous hash and the tip height plus one, and it is written and
installed as the new tip unconditionally. -/
theorem c3_mineBlock (env : Env) (ecV : ℕ × ℕ → List ℕ → ℕ × ℕ → Bool)
    (fuel : ℕ) (ts : ℤ) (st : BCState) (txs : List Transaction)
    (lh lbBytes : List ℕ) (lastBlock : Block)
    (hl : bget st.bucket lKey = some lh)
    (hlb : bget st.bucket lh = some lbBytes)
    (hdec : env.deserB lbBytes = some lastBlock) :
    (∀ pre bad rest, txs = pre ++ bad :: rest →
      (∀ tx ∈ pre, verifyTransaction env ecV fuel st tx = some (.ok true)) →
      verifyTransaction env ecV fuel st bad = some (.ok false) →
      mineBlock env ecV fuel ts st txs =
        some (st, .error GlockError.invalidTransaction)) ∧
    ((∀ tx ∈ txs, verifyTransaction env ecV fuel st tx = some (.ok true)) →
      ∀ mroot : List ℕ, ∀ n₀ : ℕ,
      hashTransactionsOf env.sha txs = some mroot →
      bytesToNat (env.sha (powData lh mroot ts (n₀ : ℤ))) < powTarget →
      (∀ m : ℕ, m < n₀ →
        ¬ bytesToNat (env.sha (powData lh mroot ts (m : ℤ))) < powTarget) →
      n₀ < maxNonce →
      ∃ nb, newBlock env ts txs lh (lastBlock.height + 1) = some nb ∧
        nb.prevBlockHash = lh ∧
        nb.height = lastBlock.height + 1 ∧
        nb.nonce = (n₀ : ℤ) ∧
        mineBlock env ecV fuel ts st txs =
          some ({ tip := nb.hash,
                  bucket := bput (bput st.bucket nb.hash (env.serB nb)) lKey nb.hash },
                .ok nb)) := by
  constructor
  · intro pre bad rest htxs hpre hbad
    have hv : verifyAll env ecV fuel st txs =
        some (.error GlockError.invalidTransaction) := by
      rw [htxs, verifyAll_append_true env ecV fuel st (bad :: rest) pre hpre,
        verifyAll, hbad]
    rw [mineBlock, hv]
  · intro hall mroot n₀ hm hP hmin hn
    have hrun : powRun env (preBlock ts txs lh (lastBlock.height + 1)) =
        some (n₀, env.sha (powData lh mroot ts (n₀ : ℤ))) := by
      simp only [powRun, preBlock, hm, Option.map_some']
      rw [powRunAux_found env lh mroot ts n₀ hP maxNonce 0 _ (Nat.zero_le _)
        (by omega) (fun m _ hm2 => hmin m hm2)]
    have hnb : newBlock env ts txs lh (lastBlock.height + 1) =
        some { preBlock ts txs lh (lastBlock.height + 1) with
          hash := env.sha (powData lh mroot ts (n₀ : ℤ)), nonce := (n₀ : ℤ) } := by
      rw [newBlock, hrun]
      rfl
    refine ⟨_, hnb, rfl, rfl, rfl, ?_⟩
    rw [mineBlock, verifyAll_all_true env ecV fuel st txs hall]
    dsimp only
    rw [hl]
    dsimp only
    rw [hlb]
    dsimp only
    rw [hdec]
    dsimp only
    rw [hnb]

/-- Five coinbase transactions with distinct ids; each verifies
trivially. -/
def cbs3 : List Transaction :=
  [⟨[21], [⟨[], -1, [], [1]⟩], [⟨10, [5]⟩]⟩,
   ⟨[22], [⟨[], -1, [], [2]⟩], [⟨10, [5]⟩]⟩,
   ⟨[23], [⟨[], -1, [], [3]⟩], [⟨10, [5]⟩]⟩,
   ⟨[24], [⟨[], -1, [], [4]⟩], [⟨10, [5]⟩]⟩,
   ⟨[25], [⟨[], -1, [], [5]⟩], [⟨10, [5]⟩]⟩]

/-- Counterexample for C3 as stated: five coinbase transactions all pass
verification, yet MineBlock does not construct and write a block - it
panics (none), because NewBlock runs the proof of work, whose data
preparation calls HashTransactions, and the Merkle construction reads
past the node list for five ids. -/
theorem c3_cex_five_transactions_panic :
    (∀ tx ∈ cbs3,
      verifyTransaction envC2 (fun _ _ _ => true) 1 stC2 tx = some (.ok true)) ∧
    mineBlock envC2 (fun _ _ _ => true) 1 0 stC2 cbs3 = none := by
  refine ⟨by decide, by decide⟩

/-- Witness for the amended C3: a failing transaction aborts mining with
the invalid-transaction error and no state change, and a single coinbase
mines into a block at the tip height plus one that is installed as the
new tip. -/
theorem c3_mineBlock_witness :
    mineBlock envC2 (fun _ _ _ => false) 1 0 stC2 [txC4] =
      some (stC2, .error GlockError.invalidTransaction) ∧
    (∃ nb, newBlock envC2 0 [cbC5] [7] (lastBlockC2.height + 1) = some nb ∧
      nb.prevBlockHash = [7] ∧
      nb.height = lastBlockC2.height + 1 ∧
      nb.nonce = ((0 : ℕ) : ℤ) ∧
      mineBlock envC2 (fun _ _ _ => true) 1 0 stC2 [cbC5] =
        some ({ tip := nb.hash,
                bucket := bput (bput stC2.bucket nb.hash (envC2.serB nb)) lKey nb.hash },
              .ok nb)) := by
  have h1 := (c3_mineBlock envC2 (fun _ _ _ => false) 1 0 stC2 [txC4]
    [7] [3] lastBlockC2 rfl rfl (by decide)).1 [] txC4 [] rfl (by simp) (by decide)
  have h2 := (c3_mineBlock envC2 (fun _ _ _ => true) 1 0 stC2 [cbC5]
    [7] [3] lastBlockC2 rfl rfl (by decide)).2 (by decide) [0] 0 (by decide)
    (by decide) (fun m hm => absurd hm (Nat.not_lt_zero m)) (by decide)
  exact ⟨h1, h2⟩

/-! ## Claim C8

The UTXOSet type and its methods are not among the provided sources -
only their callers are (NewUTXOTransaction, the handlers, the CLI) - so
UTXOSet.FindSpendableOutputs is modelled from the spec.  Its selection
loop is the same one Blockchain.FindSpendableOutputs runs in
blockchain.go over the unspent transactions it just collected: select
an output locked to the key while accumulated < amount, add its value,
record its index under the transaction id, and stop selecting once
accumulated >= amount (the labelled break); only the source of the
entries differs (the chainstate bucket instead of a chain scan).  The
chainstate is the association list from transaction id to the list of
that transaction's still-unspent outputs, taken as a parameter. -/

/-- Modelled from the spec: the inner loop of UTXOSet.FindSpendableOutputs
over the outputs of one chainstate entry (the UTXOSet methods are missing
from the sources).  Walk the outputs in order; an output locked to the
given public key hash is selected while the running total is still below
the requested amount, and its value joins the total.  Returns the new
total and the selected output positions; the position list is built
relative to the current output, mirroring the outIdx counter. -/
def fsoOuts (pkh : List ℕ) (amount : ℤ) : List TXOutput → ℤ → ℤ × List ℕ
  | [], acc => (acc, [])
  | out :: outs, acc =>
    if out.publicKeyHash = pkh ∧ acc < amount then
      let r := fsoOuts pkh amount outs (acc + out.value)
      (r.1, 0 :: r.2.map (fun i => i + 1))
    else
      let r := fsoOuts pkh amount outs acc
      (r.1, r.2.map (fun i => i + 1))

/-- Modelled from the spec: the cursor scan of
UTXOSet.FindSpendableOutputs over the chainstate entries, accumulating
across entries; an entry with no selected output contributes no key. -/
def fsoEntries (pkh : List ℕ) (amount : ℤ) :
    List (List ℕ × List TXOutput) → ℤ → ℤ × List (List ℕ × List ℕ)
  | [], acc => (acc, [])
  | e :: rest, acc =>
    let r1 := fsoOuts pkh amount e.2 acc
    let r2 := fsoEntries pkh amount rest r1.1
    (r2.1, if r1.2.isEmpty then r2.2 else (e.1, r1.2) :: r2.2)

/-- Modelled from the spec: UTXOSet.FindSpendableOutputs starts the
accumulator at zero and returns the accumulated value together with the
selected output positions per transaction id. -/
def findSpendableOutputs (u : List (List ℕ × List TXOutput)) (pkh : List ℕ)
    (amount : ℤ) : ℤ × List (List ℕ × List ℕ) :=
  fsoEntries pkh amount u 0

/-- The total value of the outputs of one entry locked to a public key
hash. -/
def lockedSum (pkh : List ℕ) : List TXOutput → ℤ
  | [] => 0
  | out :: outs =>
    (if out.publicKeyHash = pkh then out.value else 0) + lockedSum pkh outs

/-- The total unspent value locked to a public key hash over the whole
chainstate bucket. -/
def totalLocked (pkh : List ℕ) : List (List ℕ × List TXOutput) → ℤ
  | [] => 0
  | e :: rest => lockedSum pkh e.2 + totalLocked pkh rest

/-- The output a transaction input references, read from the chainstate
bucket. -/
def getOutput (u : List (List ℕ × List TXOutput)) (txid : List ℕ) (i : ℤ) :
    Option TXOutput :=
  match u.find? (fun e => e.1 = txid) with
  | none => none
  | some e => listGetZ e.2 i

/-- The total value of the outputs referenced by a list of inputs
(zero for a dangling reference; the theorem separately proves no
reference dangles). -/
def inputRefSum (u : List (List ℕ × List TXOutput)) : List TXInput → ℤ
  | [] => 0
  | vin :: rest =>
    (match getOutput u vin.txid vin.vout with
     | some o => o.value
     | none => 0) + inputRefSum u rest

/-- The total value of a list of outputs. -/
def sumOutputs : List TXOutput → ℤ
  | [] => 0
  | out :: outs => out.value + sumOutputs outs

/-- A wallet as NewUTXOTransaction uses it: the raw public key.  (The
private key only feeds the abstract signer.) -/
structure Wallet where
  publicKey : List ℕ

/-- checksum: the first four bytes of the double SHA-256 of the
payload. -/
def checksumOf (env : Env) (payload : List ℕ) : List ℕ :=
  (env.sha (env.sha payload)).take 4

/-- Wallet.GetAddress: Base58 of the version byte zero, the public key
hash, and the checksum. -/
def getAddress (env : Env) (w : Wallet) : List ℕ :=
  let pubKeyHash := env.hashPub w.publicKey
  let versionedHash := 0 :: pubKeyHash
  env.b58enc (versionedHash ++ checksumOf env versionedHash)

/-- TXOutput.Lock: Base58-decode the address and strip the version byte
and the four checksum bytes. -/
def lockDecode (env : Env) (address : List ℕ) : List ℕ :=
  let pubKeyHash := env.b58dec address
  (pubKeyHash.take (pubKeyHash.length - 4)).drop 1

/-- NewTXOutput: a value locked to the hash carried by the address. -/
def newTXOutput (env : Env) (value : ℤ) (address : List ℕ) : TXOutput :=
  ⟨value, lockDecode env address⟩

/-- NewUTXOTransaction: select spendable outputs for the sender's public
key hash; below the requested amount fail with not-enough-funds;
otherwise build one input per selected output, one output paying the
recipient and, when the accumulated value exceeds the amount, a change
output back to the sender's address; set the id and sign over the chain
(the Go code discards SignTransaction's error).  The selected map is
iterated in the order the scan produced it (Go iterates its map in
unspecified order, which moves inputs around but no totals). -/
def newUTXOTransaction (env : Env) (ecS : ℕ → List ℕ → ℕ × ℕ) (fuel : ℕ)
    (st : BCState) (utxo : List (List ℕ × List TXOutput)) (w : Wallet)
    (toAddr : List ℕ) (amount : ℤ) : Option (Except GlockError Transaction) :=
  let pubKeyHash := env.hashPub w.publicKey
  let r := findSpendableOutputs utxo pubKeyHash amount
  if r.1 < amount then some (.error .notEnoughFunds)
  else
    let inputs := r.2.flatMap
      (fun e => e.2.map (fun (outIdx : ℕ) => (⟨e.1, (outIdx : ℤ), [], w.publicKey⟩ : TXInput)))
    let fromAddr := getAddress env w
    let outputs := [newTXOutput env amount toAddr] ++
      (if amount < r.1 then [newTXOutput env (r.1 - amount) fromAddr] else [])
    let tx0 : Transaction := ⟨[], inputs, outputs⟩
    let tx1 := { tx0 with id := txHash env tx0 }
    (signTransaction env ecS fuel st tx1).map .ok

theorem listGetZ_coe_nat (l : List α) (n : ℕ) : listGetZ l (n : ℤ) = l.get? n := by
  rw [listGetZ]
  by_cases h : n < l.length
  · rw [dif_pos ⟨Int.ofNat_nonneg n, by simpa using h⟩, List.get?_eq_get (by simpa using h)]
    simp
  · rw [dif_neg (by simp; omega), Eq.comm, List.get?_eq_none]
    omega

theorem fsoOuts_mono (pkh : List ℕ) (amount : ℤ) :
    ∀ (outs : List TXOutput) (acc : ℤ), (∀ o ∈ outs, 0 ≤ o.value) →
    acc ≤ (fsoOuts pkh amount outs acc).1 := by
  intro outs
  induction outs with
  | nil => intro acc _; exact le_rfl
  | cons o os ih =>
    intro acc hv
    rw [fsoOuts]
    by_cases hc : o.publicKeyHash = pkh ∧ acc < amount
    · rw [if_pos hc]
      have h1 : acc + o.value ≤ (fsoOuts pkh amount os (acc + o.value)).1 :=
        ih (acc + o.value) (fun x hx => hv x (by simp [hx]))
      have h0 : 0 ≤ o.value := hv o (by simp)
      calc acc ≤ acc + o.value := by omega
        _ ≤ _ := h1
    · rw [if_neg hc]
      exact ih acc (fun x hx => hv x (by simp [hx]))

theorem fsoOuts_le (pkh : List ℕ) (amount : ℤ) :
    ∀ (outs : List TXOutput) (acc : ℤ), (∀ o ∈ outs, 0 ≤ o.value) →
    (fsoOuts pkh amount outs acc).1 ≤ acc + lockedSum pkh outs := by
  intro outs
  induction outs with
  | nil => intro acc _; simp [fsoOuts, lockedSum]
  | cons o os ih =>
    intro acc hv
    have h0 : 0 ≤ o.value := hv o (by simp)
    rw [fsoOuts, lockedSum]
    by_cases hc : o.publicKeyHash = pkh ∧ acc < amount
    · rw [if_pos hc, if_pos hc.1]
      dsimp only
      have := ih (acc + o.value) (fun x hx => hv x (by simp [hx]))
      omega
    · rw [if_neg hc]
      dsimp only
      have := ih acc (fun x hx => hv x (by simp [hx]))
      by_cases hl : o.publicKeyHash = pkh
      · rw [if_pos hl]
        omega
      · rw [if_neg hl]
        omega

theorem fsoOuts_below (pkh : List ℕ) (amount : ℤ) :
    ∀ (outs : List TXOutput) (acc : ℤ), (∀ o ∈ outs, 0 ≤ o.value) →
    (fsoOuts pkh amount outs acc).1 < amount →
    (fsoOuts pkh amount outs acc).1 = acc + lockedSum pkh outs := by
  intro outs
  induction outs with
  | nil => intro acc _ _; simp [fsoOuts, lockedSum]
  | cons o os ih =>
    intro acc hv hlt
    rw [fsoOuts] at hlt ⊢
    rw [lockedSum]
    by_cases hc : o.publicKeyHash = pkh ∧ acc < amount
    · rw [if_pos hc] at hlt ⊢
      rw [if_pos hc.1]
      dsimp only at hlt ⊢
      have := ih (acc + o.value) (fun x hx => hv x (by simp [hx])) hlt
      omega
    · rw [if_neg hc] at hlt ⊢
      dsimp only at hlt ⊢
      have hrec := ih acc (fun x hx => hv x (by simp [hx])) hlt
      by_cases hl : o.publicKeyHash = pkh
      · exfalso
        have hge : ¬ acc < amount := fun ha => hc ⟨hl, ha⟩
        have := fsoOuts_mono pkh amount os acc (fun x hx => hv x (by simp [hx]))
        omega
      · rw [if_neg hl]
        omega

/-- The value selected from one entry, summed over output positions. -/
def entrySum (outs : List TXOutput) : List ℕ → ℤ
  | [] => 0
  | i :: is =>
    (match outs.get? i with
     | some o => o.value
     | none => 0) + entrySum outs is

theorem entrySum_shift (o : TXOutput) (os : List TXOutput) :
    ∀ is : List ℕ, entrySum (o :: os) (is.map (fun i => i + 1)) = entrySum os is := by
  intro is
  induction is with
  | nil => rfl
  | cons i is ih =>
    rw [List.map_cons, entrySum, entrySum, ih]
    rfl

/-- The positions the inner scan selects exist in the entry, and their
values sum to exactly the growth of the accumulator: every selected
output is consumed whole. -/
theorem fsoOuts_sel (pkh : List ℕ) (amount : ℤ) :
    ∀ (outs : List TXOutput) (acc : ℤ),
    (∀ i ∈ (fsoOuts pkh amount outs acc).2, (outs.get? i).isSome) ∧
    entrySum outs (fsoOuts pkh amount outs acc).2 =
      (fsoOuts pkh amount outs acc).1 - acc := by
  intro outs
  induction outs with
  | nil => intro acc; refine ⟨by simp [fsoOuts], by simp [fsoOuts, entrySum]⟩
  | cons o os ih =>
    intro acc
    rw [fsoOuts]
    by_cases hc : o.publicKeyHash = pkh ∧ acc < amount
    · rw [if_pos hc]
      dsimp only
      obtain ⟨ihs, ihe⟩ := ih (acc + o.value)
      constructor
      · intro i hi
        rcases List.mem_cons.mp hi with h0 | hmem
        · subst h0; rfl
        · obtain ⟨j, hj, rfl⟩ := List.mem_map.mp hmem
          simpa using ihs j hj
      · rw [entrySum, entrySum_shift, ihe]
        dsimp only [List.get?]
        omega
    · rw [if_neg hc]
      dsimp only
      obtain ⟨ihs, ihe⟩ := ih acc
      constructor
      · intro i hi
        obtain ⟨j, hj, rfl⟩ := List.mem_map.mp hi
        simpa using ihs j hj
      · rw [entrySum_shift, ihe]

theorem fsoEntries_mono (pkh : List ℕ) (amount : ℤ) :
    ∀ (u : List (List ℕ × List TXOutput)) (acc : ℤ),
    (∀ e ∈ u, ∀ o ∈ e.2, 0 ≤ o.value) →
    acc ≤ (fsoEntries pkh amount u acc).1 := by
  intro u
  induction u with
  | nil => intro acc _; exact le_rfl
  | cons e rest ih =>
    intro acc hv
    rw [fsoEntries]
    dsimp only
    have h1 := fsoOuts_mono pkh amount e.2 acc (hv e (by simp))
    have h2 := ih (fsoOuts pkh amount e.2 acc).1
      (fun x hx => hv x (by simp [hx]))
    omega

theorem fsoEntries_le (pkh : List ℕ) (amount : ℤ) :
    ∀ (u : List (List ℕ × List TXOutput)) (acc : ℤ),
    (∀ e ∈ u, ∀ o ∈ e.2, 0 ≤ o.value) →
    (fsoEntries pkh amount u acc).1 ≤ acc + totalLocked pkh u := by
  intro u
  induction u with
  | nil => intro acc _; simp [fsoEntries, totalLocked]
  | cons e rest ih =>
    intro acc hv
    rw [fsoEntries, totalLocked]
    dsimp only
    have h1 := fsoOuts_le pkh amount e.2 acc (hv e (by simp))
    have h2 := ih (fsoOuts pkh amount e.2 acc).1
      (fun x hx => hv x (by simp [hx]))
    omega

theorem fsoEntries_below (pkh : List ℕ) (amount : ℤ) :
    ∀ (u : List (List ℕ × List TXOutput)) (acc : ℤ),
    (∀ e ∈ u, ∀ o ∈ e.2, 0 ≤ o.value) →
    (fsoEntries pkh amount u acc).1 < amount →
    (fsoEntries pkh amount u acc).1 = acc + totalLocked pkh u := by
  intro u
  induction u with
  | nil => intro acc _ _; simp [fsoEntries, totalLocked]
  | cons e rest ih =>
    intro acc hv hlt
    rw [fsoEntries] at hlt ⊢
    dsimp only at hlt ⊢
    rw [totalLocked]
    have hmono := fsoEntries_mono pkh amount rest (fsoOuts pkh amount e.2 acc).1
      (fun x hx => hv x (by simp [hx]))
    have h1lt : (fsoOuts pkh amount e.2 acc).1 < amount := by omega
    have h1 := fsoOuts_below pkh amount e.2 acc (hv e (by simp)) h1lt
    have h2 := ih (fsoOuts pkh amount e.2 acc).1
      (fun x hx => hv x (by simp [hx])) hlt
    omega

/-- With unique bucket keys, the referenced output of a stored entry is
read from that entry. -/
theorem getOutput_of_mem (u : List (List ℕ × List TXOutput))
    (hnodup : (u.map (fun e => e.1)).Nodup) (t : List ℕ) (outs : List TXOutput)
    (hmem : (t, outs) ∈ u) (i : ℕ) :
    getOutput u t (i : ℤ) = outs.get? i := by
  induction u with
  | nil => simp at hmem
  | cons e rest ih =>
    rcases List.mem_cons.mp hmem with heq | htail
    · subst heq
      rw [getOutput]
      have hfind : ((t, outs) :: rest).find? (fun x => decide (x.1 = t)) =
          some (t, outs) := by
        simp [List.find?]
      rw [hfind]
      exact listGetZ_coe_nat outs i
    · have hne : e.1 ≠ t := by
        intro he
        rw [List.map_cons, List.nodup_cons] at hnodup
        exact hnodup.1 (he ▸ List.mem_map.mpr ⟨(t, outs), htail, rfl⟩)
      rw [getOutput]
      have hfind : ((e :: rest).find? (fun x => decide (x.1 = t))) =
          rest.find? (fun x => decide (x.1 = t)) := by
        simp [List.find?, hne]
      rw [hfind]
      have ihh := ih
        (by rw [List.map_cons, List.nodup_cons] at hnodup; exact hnodup.2) htail
      rw [getOutput] at ihh
      exact ihh

/-- The value of one selected entry of the scan result, resolved through
the bucket. -/
def entrySumU (u : List (List ℕ × List TXOutput)) (t : List ℕ) : List ℕ → ℤ
  | [] => 0
  | i :: is =>
    (match getOutput u t (i : ℤ) with
     | some o => o.value
     | none => 0) + entrySumU u t is

/-- The value of the whole scan result, resolved through the bucket. -/
def selSum (u : List (List ℕ × List TXOutput)) :
    List (List ℕ × List ℕ) → ℤ
  | [] => 0
  | e :: rest => entrySumU u e.1 e.2 + selSum u rest

theorem entrySumU_eq (u : List (List ℕ × List TXOutput))
    (hnodup : (u.map (fun e => e.1)).Nodup) (t : List ℕ) (outs : List TXOutput)
    (hmem : (t, outs) ∈ u) :
    ∀ is : List ℕ, entrySumU u t is = entrySum outs is := by
  intro is
  induction is with
  | nil => rfl
  | cons i is ih =>
    rw [entrySumU, entrySum, ih, getOutput_of_mem u hnodup t outs hmem i]

/-- The entries the scan selects all exist in the bucket, every selected
position resolves to a stored output, and the resolved values sum to the
growth of the accumulator. -/
theorem fsoEntries_sel (u : List (List ℕ × List TXOutput))
    (hnodup : (u.map (fun e => e.1)).Nodup) (pkh : List ℕ) (amount : ℤ) :
    ∀ (usuf : List (List ℕ × List TXOutput)) (acc : ℤ), (∀ e ∈ usuf, e ∈ u) →
    (∀ e ∈ (fsoEntries pkh amount usuf acc).2, ∀ i ∈ e.2,
      (getOutput u e.1 (i : ℤ)).isSome) ∧
    selSum u (fsoEntries pkh amount usuf acc).2 =
      (fsoEntries pkh amount usuf acc).1 - acc := by
  intro usuf
  induction usuf with
  | nil => intro acc _; refine ⟨by simp [fsoEntries], by simp [fsoEntries, selSum]⟩
  | cons e rest ih =>
    intro acc hsub
    obtain ⟨t, outs⟩ := e
    have hmem : (t, outs) ∈ u := hsub (t, outs) (by simp)
    obtain ⟨hos, hoe⟩ := fsoOuts_sel pkh amount outs acc
    obtain ⟨ihs, ihe⟩ := ih (fsoOuts pkh amount outs acc).1
      (fun x hx => hsub x (by simp [hx]))
    rw [fsoEntries]
    dsimp only
    by_cases hemp : (fsoOuts pkh amount outs acc).2.isEmpty
    · rw [if_pos hemp]
      have hz : entrySum outs (fsoOuts pkh amount outs acc).2 = 0 := by
        rw [List.isEmpty_iff] at hemp
        rw [hemp]
        rfl
      have hacc1 : (fsoOuts pkh amount outs acc).1 = acc := by
        rw [hz] at hoe
        omega
      refine ⟨ihs, ?_⟩
      rw [ihe, hacc1]
    · rw [if_neg hemp]
      constructor
      · intro x hx i hi
        rcases List.mem_cons.mp hx with h0 | hx'
        · subst h0
          have := hos i hi
          rw [← getOutput_of_mem u hnodup t outs hmem i] at this
          exact this
        · exact ihs x hx' i hi
      · rw [selSum, ihe,
          entrySumU_eq u hnodup t outs hmem (fsoOuts pkh amount outs acc).2, hoe]
        omega

theorem inputRefSum_append (u : List (List ℕ × List TXOutput)) :
    ∀ l1 l2 : List TXInput,
    inputRefSum u (l1 ++ l2) = inputRefSum u l1 + inputRefSum u l2 := by
  intro l1 l2
  induction l1 with
  | nil => simp [inputRefSum]
  | cons v vs ih =>
    rw [List.cons_append, inputRefSum, inputRefSum, ih]
    omega

theorem inputRefSum_map_entry (u : List (List ℕ × List TXOutput))
    (t : List ℕ) (pk : List ℕ) :
    ∀ is : List ℕ,
    inputRefSum u (is.map (fun (i : ℕ) => (⟨t, (i : ℤ), [], pk⟩ : TXInput))) =
      entrySumU u t is := by
  intro is
  induction is with
  | nil => rfl
  | cons i is ih =>
    rw [List.map_cons, inputRefSum, entrySumU, ih]

theorem inputRefSum_bind (u : List (List ℕ × List TXOutput)) (pk : List ℕ) :
    ∀ sel : List (List ℕ × List ℕ),
    inputRefSum u (sel.flatMap
      (fun e => e.2.map (fun (i : ℕ) => (⟨e.1, (i : ℤ), [], pk⟩ : TXInput)))) =
      selSum u sel := by
  intro sel
  induction sel with
  | nil => rfl
  | cons e rest ih =>
    have hstep : (e :: rest).flatMap
        (fun e => e.2.map (fun (i : ℕ) => (⟨e.1, (i : ℤ), [], pk⟩ : TXInput))) =
        e.2.map (fun (i : ℕ) => (⟨e.1, (i : ℤ), [], pk⟩ : TXInput)) ++
        rest.flatMap
          (fun e => e.2.map (fun (i : ℕ) => (⟨e.1, (i : ℤ), [], pk⟩ : TXInput))) := rfl
    rw [hstep, inputRefSum_append, inputRefSum_map_entry, selSum, ih]

theorem txSignAux_length (env : Env) (ecS : ℕ → List ℕ → ℕ × ℕ)
    (prevs : List (List ℕ × Transaction)) :
    ∀ (rest : List TXInput) (i : ℕ) (c : Transaction) (sigs : List (List ℕ)),
    txSignAux env ecS prevs rest i c = some sigs → sigs.length = rest.length := by
  intro rest
  induction rest with
  | nil => intro i c sigs h; cases h; rfl
  | cons vin rest ih =>
    intro i c sigs h
    rw [txSignAux] at h
    cases hout : listGetZ (lookupTx prevs vin.txid).vout vin.vout with
    | none => rw [hout] at h; exact absurd h (by simp)
    | some out =>
      rw [hout] at h
      dsimp only at h
      obtain ⟨sigs', hs', rfl⟩ := Option.map_eq_some'.mp h
      simpa using ih (i + 1) _ sigs' hs'

theorem map_pair_zipWith :
    ∀ (l : List TXInput) (sigs : List (List ℕ)), sigs.length = l.length →
    (List.zipWith (fun v s => { v with signature := s }) l sigs).map
      (fun v => (v.txid, v.vout)) = l.map (fun v => (v.txid, v.vout)) := by
  intro l
  induction l with
  | nil => intro sigs _; simp
  | cons v vs ih =>
    intro sigs h
    cases sigs with
    | nil => simp at h
    | cons s ss => simpa using ih ss (by simpa using h)

/-- SignTransaction keeps the outputs and the input references of the
transaction: it only fills in signatures (or, when a previous
transaction cannot be found, leaves the transaction unchanged). -/
theorem signTransaction_preserves (env : Env) (ecS : ℕ → List ℕ → ℕ × ℕ)
    (fuel : ℕ) (st : BCState) (tx tx' : Transaction)
    (h : signTransaction env ecS fuel st tx = some tx') :
    tx'.vout = tx.vout ∧
    tx'.vin.map (fun v => (v.txid, v.vout)) = tx.vin.map (fun v => (v.txid, v.vout)) := by
  rw [signTransaction] at h
  cases hb : buildPrevTXs env st fuel tx.vin with
  | none => rw [hb] at h; exact absurd h (by simp)
  | some r =>
    rw [hb] at h
    cases r with
    | error e => cases h; exact ⟨rfl, rfl⟩
    | ok prevs =>
      dsimp only at h
      rw [txSign] at h
      by_cases hcb : isCoinbase tx = true
      · rw [if_pos (by simp [hcb])] at h
        cases h
        exact ⟨rfl, rfl⟩
      · rw [if_neg (by simpa using hcb)] at h
        cases hs : txSignAux env ecS prevs (trimmedCopy tx).vin 0 (trimmedCopy tx) with
        | none => rw [hs] at h; exact absurd h (by simp)
        | some sigs =>
          rw [hs] at h
          cases h
          have hlen : sigs.length = tx.vin.length := by
            have := txSignAux_length env ecS prevs (trimmedCopy tx).vin 0
              (trimmedCopy tx) sigs hs
            simpa [trimmedCopy] using this
          exact ⟨rfl, map_pair_zipWith tx.vin sigs hlen⟩

theorem inputRefSum_eq_of_pairs (u : List (List ℕ × List TXOutput)) :
    ∀ l1 l2 : List TXInput,
    l1.map (fun v => (v.txid, v.vout)) = l2.map (fun v => (v.txid, v.vout)) →
    inputRefSum u l1 = inputRefSum u l2 := by
  intro l1
  induction l1 with
  | nil => intro l2 h; cases l2 with
    | nil => rfl
    | cons b bs => simp at h
  | cons a as ih =>
    intro l2 h
    cases l2 with
    | nil => simp at h
    | cons b bs =>
      simp only [List.map_cons, List.cons.injEq, Prod.mk.injEq] at h
      rw [inputRefSum, inputRefSum, h.1.1, h.1.2, ih bs h.2]

theorem refs_some_of_pairs (u : List (List ℕ × List TXOutput)) :
    ∀ l1 l2 : List TXInput,
    l1.map (fun v => (v.txid, v.vout)) = l2.map (fun v => (v.txid, v.vout)) →
    (∀ v ∈ l1, (getOutput u v.txid v.vout).isSome) →
    ∀ v ∈ l2, (getOutput u v.txid v.vout).isSome := by
  intro l1
  induction l1 with
  | nil => intro l2 h _; cases l2 with
    | nil => simp
    | cons b bs => simp at h
  | cons a as ih =>
    intro l2 h hall
    cases l2 with
    | nil => simp
    | cons b bs =>
      simp only [List.map_cons, List.cons.injEq, Prod.mk.injEq] at h
      intro v hv
      rcases List.mem_cons.mp hv with rfl | hv'
      · rw [← h.1.1, ← h.1.2]
        exact hall a (by simp)
      · exact ih bs h.2 (fun x hx => hall x (by simp [hx])) v hv'

/-- Locking an output to the sender's own address recovers the sender's
public key hash, provided Base58 round-trips on that address and the
checksum is four bytes (SHA-256 output is 32 bytes). -/
theorem lockDecode_getAddress (env : Env) (w : Wallet)
    (hb58 : env.b58dec (getAddress env w) =
      (0 :: env.hashPub w.publicKey) ++ checksumOf env (0 :: env.hashPub w.publicKey))
    (hck : (checksumOf env (0 :: env.hashPub w.publicKey)).length = 4) :
    lockDecode env (getAddress env w) = env.hashPub w.publicKey := by
  rw [lockDecode]
  rw [hb58]
  have hlen : ((0 :: env.hashPub w.publicKey) ++
      checksumOf env (0 :: env.hashPub w.publicKey)).length - 4 =
      (0 :: env.hashPub w.publicKey).length := by
    rw [List.length_append, hck]
    omega
  rw [hlen, List.take_left]
  rfl

/-- C8: NewUTXOTransaction on the (spec-modelled) UTXO set.  For a
chainstate with unique keys, non-negative output values and a sender
address on which Base58 round-trips: the call fails with
not-enough-funds exactly when the total unspent value locked to the
sender's public key hash is strictly below the requested amount; and a
successfully built transaction pays exactly one output of the amount to
the recipient plus, when the accumulated selection exceeds the amount,
one change output of the difference locked back to the sender, every
input references a stored unspent output, and the referenced values sum
to the accumulated selection, which also equals the output total - each
selected output is spent whole and input total equals output total. -/
theorem c8_newUTXOTransaction (env : Env) (ecS : ℕ → List ℕ → ℕ × ℕ)
    (fuel : ℕ) (st : BCState) (utxo : List (List ℕ × List TXOutput))
    (w : Wallet) (toAddr : List ℕ) (amount : ℤ)
    (hvals : ∀ e ∈ utxo, ∀ o ∈ e.2, 0 ≤ o.value)
    (hnodup : (utxo.map (fun e => e.1)).Nodup)
    (hb58 : env.b58dec (getAddress env w) =
      (0 :: env.hashPub w.publicKey) ++ checksumOf env (0 :: env.hashPub w.publicKey))
    (hck : (checksumOf env (0 :: env.hashPub w.publicKey)).length = 4) :
    (newUTXOTransaction env ecS fuel st utxo w toAddr amount =
        some (.error GlockError.notEnoughFunds) ↔
      totalLocked (env.hashPub w.publicKey) utxo < amount) ∧
    (∀ tx, newUTXOTransaction env ecS fuel st utxo w toAddr amount = some (.ok tx) →
      tx.vout = ⟨amount, lockDecode env toAddr⟩ ::
        (if amount < (findSpendableOutputs utxo (env.hashPub w.publicKey) amount).1
         then [⟨(findSpendableOutputs utxo (env.hashPub w.publicKey) amount).1 - amount,
               env.hashPub w.publicKey⟩]
         else []) ∧
      sumOutputs tx.vout =
        (findSpendableOutputs utxo (env.hashPub w.publicKey) amount).1 ∧
      (∀ vin ∈ tx.vin, (getOutput utxo vin.txid vin.vout).isSome) ∧
      inputRefSum utxo tx.vin =
        (findSpendableOutputs utxo (env.hashPub w.publicKey) amount).1) := by
  set pkh := env.hashPub w.publicKey with hpkh
  have hfso : findSpendableOutputs utxo pkh amount = fsoEntries pkh amount utxo 0 := rfl
  constructor
  · by_cases hacc : (findSpendableOutputs utxo pkh amount).1 < amount
    · have hres : newUTXOTransaction env ecS fuel st utxo w toAddr amount =
          some (.error GlockError.notEnoughFunds) := by
        rw [newUTXOTransaction]
        dsimp only
        rw [if_pos hacc]
      rw [hres]
      have hbelow := fsoEntries_below pkh amount utxo 0 hvals (by rw [← hfso]; exact hacc)
      rw [hfso] at hacc
      constructor
      · intro _
        omega
      · intro _
        rfl
    · have hle := fsoEntries_le pkh amount utxo 0 hvals
      constructor
      · intro hres
        rw [newUTXOTransaction] at hres
        dsimp only at hres
        rw [if_neg hacc] at hres
        cases hs : signTransaction env ecS fuel st
            { id := txHash env ⟨[],
                (findSpendableOutputs utxo pkh amount).2.flatMap
                  (fun e => e.2.map
                    (fun (outIdx : ℕ) => (⟨e.1, (outIdx : ℤ), [], w.publicKey⟩ : TXInput))),
                [newTXOutput env amount toAddr] ++
                  (if amount < (findSpendableOutputs utxo pkh amount).1
                   then [newTXOutput env
                     ((findSpendableOutputs utxo pkh amount).1 - amount)
                     (getAddress env w)] else [])⟩,
              vin := (findSpendableOutputs utxo pkh amount).2.flatMap
                (fun e => e.2.map
                  (fun (outIdx : ℕ) => (⟨e.1, (outIdx : ℤ), [], w.publicKey⟩ : TXInput))),
              vout := [newTXOutput env amount toAddr] ++
                (if amount < (findSpendableOutputs utxo pkh amount).1
                 then [newTXOutput env
                   ((findSpendableOutputs utxo pkh amount).1 - amount)
                   (getAddress env w)] else []) } with
        | none => rw [hs] at hres; exact absurd hres (by simp)
        | some tx' =>
          rw [hs] at hres
          simp only [Option.map_some'] at hres
          exact absurd hres (by simp)
      · intro htot
        exfalso
        rw [hfso] at hacc
        omega
  · intro tx hres
    rw [newUTXOTransaction] at hres
    dsimp only at hres
    by_cases hacc : (findSpendableOutputs utxo pkh amount).1 < amount
    · rw [if_pos hacc] at hres
      exact absurd hres (by simp)
    · rw [if_neg hacc] at hres
      obtain ⟨tx1, hs, hok⟩ := Option.map_eq_some'.mp hres
      cases hok
      obtain ⟨hvout, hpairs⟩ := signTransaction_preserves env ecS fuel st _ tx hs
      rw [← hpkh] at hvout hpairs
      obtain ⟨hsel_some, hsel_sum⟩ :=
        fsoEntries_sel utxo hnodup pkh amount utxo 0 (fun e he => he)
      have hrefs0 : ∀ v ∈ (findSpendableOutputs utxo pkh amount).2.flatMap
          (fun e => e.2.map
            (fun (outIdx : ℕ) => (⟨e.1, (outIdx : ℤ), [], w.publicKey⟩ : TXInput))),
          (getOutput utxo v.txid v.vout).isSome := by
        intro v hv
        obtain ⟨e, he, hv'⟩ := List.mem_flatMap.mp hv
        obtain ⟨i, hi, rfl⟩ := List.mem_map.mp hv'
        exact hsel_some e (by rw [hfso] at he; exact he) i hi
      have hsum0 : inputRefSum utxo ((findSpendableOutputs utxo pkh amount).2.flatMap
          (fun e => e.2.map
            (fun (outIdx : ℕ) => (⟨e.1, (outIdx : ℤ), [], w.publicKey⟩ : TXInput)))) =
          (findSpendableOutputs utxo pkh amount).1 := by
        rw [inputRefSum_bind, hfso, hsel_sum]
        omega
      refine ⟨?_, ?_, ?_, ?_⟩
      · rw [hvout]
        by_cases hch : amount < (findSpendableOutputs utxo pkh amount).1
        · rw [if_pos hch, if_pos hch]
          simp only [newTXOutput]
          rw [lockDecode_getAddress env w hb58 hck]
          rfl
        · rw [if_neg hch, if_neg hch]
          rfl
      · rw [hvout]
        by_cases hch : amount < (findSpendableOutputs utxo pkh amount).1
        · rw [if_pos hch]
          simp only [List.cons_append, List.nil_append, sumOutputs, newTXOutput]
          omega
        · rw [if_neg hch]
          simp only [List.cons_append, List.nil_append, sumOutputs, newTXOutput]
          omega
      · exact refs_some_of_pairs utxo _ tx.vin hpairs.symm hrefs0
      · rw [inputRefSum_eq_of_pairs utxo tx.vin _ hpairs]
        exact hsum0

/-- Concrete environment for evaluating NewUTXOTransaction: four-byte
hashes so the address checksum has length 4, identity Base58, and a
constant public-key hash. -/
def envC8 : Env :=
  { baseEnv with sha := fun _ => [9, 9, 9, 9], hashPub := fun _ => [5] }

def wC8 : Wallet := ⟨[2]⟩

def utxoC8 : List (List ℕ × List TXOutput) := [([1], [⟨7, [5]⟩])]

theorem c8_newUTXOTransaction_witness :
    ((∀ e ∈ utxoC8, ∀ o ∈ e.2, 0 ≤ o.value) ∧
     (utxoC8.map (fun e => e.1)).Nodup ∧
     envC8.b58dec (getAddress envC8 wC8) =
       (0 :: envC8.hashPub wC8.publicKey) ++
         checksumOf envC8 (0 :: envC8.hashPub wC8.publicKey) ∧
     (checksumOf envC8 (0 :: envC8.hashPub wC8.publicKey)).length = 4) ∧
    (newUTXOTransaction envC8 (fun _ _ => (0, 0)) 1 ⟨[], []⟩ utxoC8 wC8 [3] 10 =
        some (.error GlockError.notEnoughFunds) ↔
      totalLocked (envC8.hashPub wC8.publicKey) utxoC8 < 10) :=
  ⟨⟨by decide, by decide, by decide, by decide⟩,
   (c8_newUTXOTransaction envC8 (fun _ _ => (0, 0)) 1 ⟨[], []⟩ utxoC8 wC8 [3] 10
     (by decide) (by decide) (by decide) (by decide)).1⟩
